import Mathlib

/-!
# monorepo-diff Buildkite plugin: configuration normalisation

A shallow embedding of `plugin.go` and the properties of its normalisation
pipeline (`parseEnv`, `appendEnv`, `setBuild`, `Plugin.UnmarshalJSON`,
`Step.UnmarshalJSON`, `initializePlugin`, `Step.MarshalYAML`).

Conventions of the embedding

* A Go `interface{}` holding a decoded JSON document is a value of `JSON`
  (`JSON.null` is the nil interface, `JSON.arr` is `[]interface{}`,
  `JSON.obj` is `map[string]interface{}`).
* A Go `map[string]string` is a `GoMap`: `none` is the nil map, `some es` a
  non-nil map whose entries are read through `Entries.get`.
* A run-time panic (failed type assertion) is the `Except.error` side of
  `Run`; a Go `error` return value is a `GoError` (`none` is `nil`).
* The process-environment lookup `env(name, fallback)` lives outside
  `plugin.go`; every function that calls it takes it as the parameter `env`.
-/

namespace MonorepoDiff

/-! ## Values -/

/-- A decoded JSON value, as `encoding/json` stores it in an `interface{}`. -/
inductive JSON where
  | null
  | bool (b : Bool)
  | num (n : Int)
  | str (s : String)
  | arr (items : List JSON)
  | obj (members : List (String × JSON))
  deriving Inhabited

/-- The ways the Go code can panic. -/
inductive Panic where
  | typeAssertion
  | indexOutOfRange
  deriving DecidableEq, Repr

/-- A computation that either completes or panics. -/
abbrev Run (α : Type) := Except Panic α

/-- A Go `error` value: `none` is `nil`, `some msg` is `errors.New(msg)`. -/
abbrev GoError := Option String

/-- The process-environment lookup `env(name, fallback)`. -/
abbrev EnvFn := String → String → String

/-! ## Go maps with string keys and values -/

/-- The entries of a non-nil `map[string]string`. -/
abbrev Entries := List (String × String)

/-- Map read `m[k]`, with presence: the binding of `k`, if any. -/
def Entries.get : Entries → String → Option String
  | [], _ => none
  | (k', v) :: rest, k => if k' = k then some v else Entries.get rest k

/-- Map write `m[k] = v`: replaces the binding of `k` or adds one. -/
def Entries.set : Entries → String → String → Entries
  | [], k, v => [(k, v)]
  | (k', v') :: rest, k, v =>
    if k' = k then (k, v) :: rest else (k', v') :: Entries.set rest k v

/-- The entries visited by `for k, v := range m`: every key of the map once,
with the value the map holds for it. -/
def Entries.range : Entries → Entries
  | [] => []
  | (k, v) :: rest => (k, v) :: (Entries.range rest).filter (fun e => e.1 ≠ k)

/-- A Go `map[string]string`; `none` is the nil map. -/
abbrev GoMap := Option Entries

/-- Map read on a possibly nil map (a nil map has no entries). -/
def GoMap.get (m : GoMap) (k : String) : Option String :=
  match m with
  | none => none
  | some es => Entries.get es k

/-- The result of `make(map[string]string)`. -/
def GoMap.make : GoMap := some []

/-- Map write `m[k] = v` on a map that has been made. -/
def GoMap.store (m : GoMap) (k v : String) : GoMap :=
  m.map (fun es => Entries.set es k v)

/-- The entries visited by `range` over a possibly nil map. -/
def GoMap.range (m : GoMap) : Entries :=
  match m with
  | none => []
  | some es => Entries.range es

/-! ## The `strings` functions used by `parseEnv` -/

/-- Go's `unicode.IsSpace`. -/
def isSpace (c : Char) : Bool :=
  c = ' ' || c = '\t' || c = '\n' || c = '\r'
  || c.toNat = 0x0B || c.toNat = 0x0C || c.toNat = 0x85 || c.toNat = 0xA0
  || c.toNat = 0x1680 || (0x2000 ≤ c.toNat && c.toNat ≤ 0x200A)
  || c.toNat = 0x2028 || c.toNat = 0x2029 || c.toNat = 0x202F
  || c.toNat = 0x205F || c.toNat = 0x3000

/-- Drop leading white space. -/
def trimLeft (cs : List Char) : List Char := cs.dropWhile isSpace

/-- Go's `strings.TrimSpace`: drop leading and trailing white space. -/
def TrimSpace (s : String) : String :=
  String.mk (trimLeft (trimLeft s.toList).reverse).reverse

/-- The segments of a character list between occurrences of `sep`. -/
def splitChars (sep : Char) : List Char → List (List Char)
  | [] => [[]]
  | c :: cs =>
    if c = sep then [] :: splitChars sep cs
    else
      match splitChars sep cs with
      | [] => [[c]]
      | seg :: segs => (c :: seg) :: segs

/-- Go's `strings.Split(s, sep)` for a one-character separator: all the
segments of `s` between occurrences of `sep` (at least one segment). -/
def Split (s : String) (sep : Char) : List String :=
  (splitChars sep s.toList).map String.mk

/-! ## The data model of `plugin.go` -/

/-- Plugin hook configuration. -/
structure HookConfig where
  Command : String := ""

/-- Buildkite agent definition. -/
structure Agent where
  Queue : String := ""

/-- Buildkite build definition. -/
structure Build where
  Message : String := ""
  Branch : String := ""
  Commit : String := ""
  RawEnv : JSON := JSON.null
  Env : GoMap := none

/-- One resolved soft-fail record. -/
structure SoftFail where
  ExitStatus : JSON := JSON.null

/-- The dynamic value of the `Step.SoftFail` field (an `interface{}`): either
the value as decoded, or the `[]SoftFail` built by `Step.UnmarshalJSON`. -/
inductive SoftFailValue where
  | raw (v : JSON)
  | list (records : List SoftFail)

/-- Buildkite pipeline step. -/
structure Step where
  Group : String := ""
  Trigger : String := ""
  Label : String := ""
  Build : MonorepoDiff.Build := {}
  Command : String := ""
  Agents : Agent := {}
  Artifacts : List String := []
  RawEnv : JSON := JSON.null
  Env : GoMap := none
  Async : Bool := false
  SoftFail : SoftFailValue := SoftFailValue.raw JSON.null

/-- Plugin watch configuration. -/
structure WatchConfig where
  RawPath : JSON := JSON.null
  Paths : List String := []
  Step : MonorepoDiff.Step := {}

/-- The group wrapper emitted for a step with a group label. -/
structure Group where
  Label : String
  Steps : List Step

/-- Plugin configuration. -/
structure Plugin where
  Diff : String := ""
  Wait : Bool := false
  LogLevel : String := ""
  Interpolation : Bool := false
  Hooks : List HookConfig := []
  Watch : List WatchConfig := []
  RawEnv : JSON := JSON.null
  Env : GoMap := none

/-- The constant `pluginName`. -/
def pluginName : String := "github.com/chronotc/monorepo-diff"

/-! ## `encoding/json` decoding into the plugin's struct types

`json.Unmarshal` into a struct visits the members of a JSON object in order;
a member whose key names a field (exactly, or else the first field equal to it
under case folding) is decoded into that field, any other member is ignored.
A value of the wrong JSON type leaves the field as it is, `null` leaves a
string, boolean or struct untouched and sets a slice, map or interface to nil.
The calls in `plugin.go` discard the error `json.Unmarshal` reports for such
members, so the decoders below return the decoded value only. -/

/-- Case folding of a key character: ASCII letters fold to lower case, and
the Kelvin sign and the long s fold to `k` and `s`. -/
def foldRune (c : Char) : Char :=
  if c.toNat = 0x212A then 'k' else if c.toNat = 0x17F then 's' else c.toLower

/-- Case folding of an object key or field name. -/
def foldName (s : String) : List Char := s.toList.map foldRune

/-- The field (one of `names`, in declaration order) a JSON object key
selects: an exact match if there is one, else the first folded match. -/
def findField (names : List String) (key : String) : Option String :=
  if names.contains key then some key
  else names.find? (fun n => foldName n == foldName key)

/-- Decode into a `string` field. -/
def decodeString (cur : String) : JSON → String
  | JSON.str s => s
  | _ => cur

/-- Decode into a `bool` field. -/
def decodeBool (cur : Bool) : JSON → Bool
  | JSON.bool b => b
  | _ => cur

/-- Decode into a `[]string` field that is still nil (the field is selected
for the first time): an array gives one element per item, each decoded into a
fresh string. When a later member selects the same field again `encoding/json`
decodes into the elements the slice already holds; that reuse is left out
here, and the properties that read a decoded slice are stated for blocks in
which no slice field is selected twice (`sliceKeysOnce`). -/
def decodeStrings (cur : List String) : JSON → List String
  | JSON.arr items => items.map (decodeString "")
  | JSON.null => []
  | _ => cur

/-- Decode into a `map[string]string` field: an object adds its members to
the map (made if nil), each value decoded into a fresh string. -/
def decodeStringMap (cur : GoMap) : JSON → GoMap
  | JSON.obj members =>
    some (members.foldl (fun es kv => Entries.set es kv.1 (decodeString "" kv.2)) (cur.getD []))
  | JSON.null => none
  | _ => cur

/-- Decode into a `HookConfig`. -/
def decodeHookConfig (cur : HookConfig) : JSON → HookConfig
  | JSON.obj members =>
    members.foldl (fun h kv =>
      match findField ["Command"] kv.1 with
      | some "Command" => { h with Command := decodeString h.Command kv.2 }
      | _ => h) cur
  | _ => cur

/-- Decode into a `[]HookConfig` field that is still nil, each element into a
fresh value (see `decodeStrings` for a field selected twice). -/
def decodeHooks (cur : List HookConfig) : JSON → List HookConfig
  | JSON.arr items => items.map (decodeHookConfig {})
  | JSON.null => []
  | _ => cur

/-- Decode into an `Agent`. -/
def decodeAgent (cur : Agent) : JSON → Agent
  | JSON.obj members =>
    members.foldl (fun a kv =>
      match findField ["Queue"] kv.1 with
      | some "Queue" => { a with Queue := decodeString a.Queue kv.2 }
      | _ => a) cur
  | _ => cur

/-- The JSON field names of `Build`, in declaration order. -/
def buildFields : List String := ["Message", "Branch", "Commit", "env", "Env"]

/-- Decode into a `Build`. -/
def decodeBuild (cur : Build) : JSON → Build
  | JSON.obj members =>
    members.foldl (fun b kv =>
      match findField buildFields kv.1 with
      | some "Message" => { b with Message := decodeString b.Message kv.2 }
      | some "Branch" => { b with Branch := decodeString b.Branch kv.2 }
      | some "Commit" => { b with Commit := decodeString b.Commit kv.2 }
      | some "env" => { b with RawEnv := kv.2 }
      | some "Env" => { b with Env := decodeStringMap b.Env kv.2 }
      | _ => b) cur
  | _ => cur

/-- The JSON field names of `Step`, in declaration order. -/
def stepFields : List String :=
  ["Group", "Trigger", "Label", "Build", "Command", "Agents", "Artifacts",
   "env", "Env", "Async", "soft_fail"]

/-- Decode into the method-free copy `plain` of `Step`. -/
def decodePlainStep (cur : Step) : JSON → Step
  | JSON.obj members =>
    members.foldl (fun s kv =>
      match findField stepFields kv.1 with
      | some "Group" => { s with Group := decodeString s.Group kv.2 }
      | some "Trigger" => { s with Trigger := decodeString s.Trigger kv.2 }
      | some "Label" => { s with Label := decodeString s.Label kv.2 }
      | some "Build" => { s with Build := decodeBuild s.Build kv.2 }
      | some "Command" => { s with Command := decodeString s.Command kv.2 }
      | some "Agents" => { s with Agents := decodeAgent s.Agents kv.2 }
      | some "Artifacts" => { s with Artifacts := decodeStrings s.Artifacts kv.2 }
      | some "env" => { s with RawEnv := kv.2 }
      | some "Env" => { s with Env := decodeStringMap s.Env kv.2 }
      | some "Async" => { s with Async := decodeBool s.Async kv.2 }
      | some "soft_fail" => { s with SoftFail := SoftFailValue.raw kv.2 }
      | _ => s) cur
  | _ => cur

/-- Map read `m[k]` on a `map[string]interface{}` built from the members of a
JSON object (the last member with a key wins); nil when the key is absent. -/
def memberValue (members : List (String × JSON)) (k : String) : JSON :=
  match members.reverse.find? (fun kv => kv.1 == k) with
  | some kv => kv.2
  | none => JSON.null

/-! ## The functions of `plugin.go` -/

/-- The result of `Step.MarshalYAML`: the flat step or the group wrapper. -/
inductive YAMLValue where
  | step (s : Step)
  | group (g : Group)

/-- `func (s Step) MarshalYAML() (interface{}, error)`. -/
def Step.MarshalYAML (s : Step) : YAMLValue × GoError :=
  if s.Group = "" then
    (YAMLValue.step s, none)
  else
    let label := s.Group
    let s := { s with Group := "" }
    (YAMLValue.group { Label := label, Steps := [s] }, none)

/-- The loop of `Step.UnmarshalJSON` over a `soft_fail` sequence; the
assertion `v.(map[string]interface{})` panics on an element that is not an
object. -/
def softFailRecords : List JSON → Run (List SoftFail)
  | [] => pure []
  | JSON.obj members :: rest => do
    let result ← softFailRecords rest
    pure ({ ExitStatus := memberValue members "exit_status" } :: result)
  | _ :: _ => throw Panic.typeAssertion

/-- `func (s *Step) UnmarshalJSON(data []byte) error`: the new value of `*s`
and the returned error. -/
def Step.UnmarshalJSON (data : JSON) : Run (Step × GoError) :=
  let s := decodePlainStep {} data
  match s.SoftFail with
  | SoftFailValue.raw (JSON.bool b) =>
    pure ({ s with SoftFail := SoftFailValue.raw (JSON.bool b) }, none)
  | SoftFailValue.raw (JSON.arr items) => do
    let result ← softFailRecords items
    pure ({ s with SoftFail := SoftFailValue.list result }, none)
  | _ => pure (s, none)

/-- `func setBuild(build *Build)`. -/
def setBuild (env : EnvFn) (build : Build) : Build :=
  let build := if build.Message = "" then { build with Message := env "BUILDKITE_MESSAGE" "" } else build
  let build := if build.Branch = "" then { build with Branch := env "BUILDKITE_BRANCH" "" } else build
  let build := if build.Commit = "" then { build with Commit := env "BUILDKITE_COMMIT" "" } else build
  build

/-- The body of the loop of `parseEnv` for one element `v`. -/
def parseEnvStep (env : EnvFn) (result : Entries) (v : JSON) : Run Entries :=
  match v with
  | JSON.str s =>
    match Split s '=' with
    | [] => throw Panic.indexOutOfRange
    | s0 :: value =>
      let key := TrimSpace s0
      -- only key exists. set value from env
      let result :=
        if 0 < key.length ∧ value.length = 0 then Entries.set result key (env key "") else result
      -- `if len(value) > 0 { result[key] = strings.TrimSpace(value[0]) }`
      let result :=
        match value with
        | v0 :: _ => Entries.set result key (TrimSpace v0)
        | [] => result
      pure result
  | _ => throw Panic.typeAssertion

/-- The loop of `parseEnv` over the elements of the sequence. -/
def parseEnvLoop (env : EnvFn) : List JSON → Entries → Run Entries
  | [], result => pure result
  | v :: rest, result => do
    let result ← parseEnvStep env result v
    parseEnvLoop env rest result

/-- `func parseEnv(raw interface{}) (map[string]string, error)`. -/
def parseEnv (env : EnvFn) (raw : JSON) : Run (GoMap × GoError) :=
  match raw with
  | JSON.null => pure (none, none)
  | JSON.arr items => do
    let result ← parseEnvLoop env items []
    pure (some result, none)
  | _ => pure (none, some "failed to parse plugin configuration")

/-- The body of the loop of `appendEnv` for one entry of the top-level env. -/
def appendEnvStep (watch : WatchConfig) (kv : String × String) : WatchConfig :=
  if watch.Step.Command ≠ "" then
    let stepEnv := if watch.Step.Env.isNone then GoMap.make else watch.Step.Env
    { watch with Step := { watch.Step with Env := stepEnv.store kv.1 kv.2 } }
  else if watch.Step.Trigger ≠ "" then
    let buildEnv := if watch.Step.Build.Env.isNone then GoMap.make else watch.Step.Build.Env
    { watch with
      Step := { watch.Step with Build := { watch.Step.Build with Env := buildEnv.store kv.1 kv.2 } } }
  else
    watch

/-- `func appendEnv(watch *WatchConfig, env map[string]string)`: appends the
top-level env to `Step.Env` and `Step.Build.Env`. -/
def appendEnv (env : EnvFn) (watch : WatchConfig) (top : GoMap) : Run WatchConfig := do
  let stepEnv ← parseEnv env watch.Step.RawEnv
  let watch := { watch with Step := { watch.Step with Env := stepEnv.1 } }
  let buildEnv ← parseEnv env watch.Step.Build.RawEnv
  let watch :=
    { watch with Step := { watch.Step with Build := { watch.Step.Build with Env := buildEnv.1 } } }
  let watch := (GoMap.range top).foldl appendEnvStep watch
  pure { watch with
    Step := { watch.Step with RawEnv := JSON.null, Build := { watch.Step.Build with RawEnv := JSON.null } },
    RawPath := JSON.null }

/-- The loop over a `[]interface{}` raw path, appending `v.(string)`. -/
def appendPaths : List String → List JSON → Run (List String)
  | paths, [] => pure paths
  | paths, JSON.str s :: rest => appendPaths (paths ++ [s]) rest
  | _, _ :: _ => throw Panic.typeAssertion

/-- The type switch on `RawPath` in the loop of `Plugin.UnmarshalJSON`. -/
def resolvePath (watch : WatchConfig) : Run WatchConfig :=
  match watch.RawPath with
  | JSON.str s => pure { watch with Paths := [s] }
  | JSON.arr items => do
    let paths ← appendPaths watch.Paths items
    pure { watch with Paths := paths }
  | _ => pure watch

/-- The body of the loop of `Plugin.UnmarshalJSON` for one watch rule. -/
def normalizeWatch (env : EnvFn) (top : GoMap) (watch : WatchConfig) : Run WatchConfig := do
  let watch ← resolvePath watch
  let watch :=
    if watch.Step.Trigger ≠ "" then
      { watch with Step := { watch.Step with Build := setBuild env watch.Step.Build } }
    else watch
  appendEnv env watch top

/-- The loop of `Plugin.UnmarshalJSON` over `plugin.Watch`. -/
def normalizeWatches (env : EnvFn) (top : GoMap) : List WatchConfig → Run (List WatchConfig)
  | [] => pure []
  | w :: rest => do
    let w ← normalizeWatch env top w
    let rest ← normalizeWatches env top rest
    pure (w :: rest)

/-- Decode into a `WatchConfig`; the `config` member is handed to
`Step.UnmarshalJSON`. -/
def decodeWatchConfig (cur : WatchConfig) : JSON → Run WatchConfig
  | JSON.obj members =>
    members.foldlM (fun w kv =>
      match findField ["path", "Paths", "config"] kv.1 with
      | some "path" => pure { w with RawPath := kv.2 }
      | some "Paths" => pure { w with Paths := decodeStrings w.Paths kv.2 }
      | some "config" => do
        let s ← Step.UnmarshalJSON kv.2
        pure { w with Step := s.1 }
      | _ => pure w) cur
  | _ => pure cur

/-- Decode the elements of a `[]WatchConfig` that is still nil, each into a
fresh value (see `decodeStrings` for a field selected twice). -/
def decodeWatchItems : List JSON → Run (List WatchConfig)
  | [] => pure []
  | v :: rest => do
    let w ← decodeWatchConfig {} v
    let ws ← decodeWatchItems rest
    pure (w :: ws)

/-- Decode into a `[]WatchConfig` field that is still nil (see
`decodeStrings` for a field selected twice). -/
def decodeWatch (cur : List WatchConfig) : JSON → Run (List WatchConfig)
  | JSON.arr items => decodeWatchItems items
  | JSON.null => pure []
  | _ => pure cur

/-- The JSON field names of `Plugin`, in declaration order. -/
def pluginFields : List String :=
  ["Diff", "Wait", "log_level", "Interpolation", "Hooks", "Watch", "env", "Env"]

/-- Decode into the method-free copy `plain` of `Plugin`. -/
def decodePlainPlugin (cur : Plugin) : JSON → Run Plugin
  | JSON.obj members =>
    members.foldlM (fun p kv =>
      match findField pluginFields kv.1 with
      | some "Diff" => pure { p with Diff := decodeString p.Diff kv.2 }
      | some "Wait" => pure { p with Wait := decodeBool p.Wait kv.2 }
      | some "log_level" => pure { p with LogLevel := decodeString p.LogLevel kv.2 }
      | some "Interpolation" => pure { p with Interpolation := decodeBool p.Interpolation kv.2 }
      | some "Hooks" => pure { p with Hooks := decodeHooks p.Hooks kv.2 }
      | some "Watch" => do
        let ws ← decodeWatch p.Watch kv.2
        pure { p with Watch := ws }
      | some "env" => pure { p with RawEnv := kv.2 }
      | some "Env" => pure { p with Env := decodeStringMap p.Env kv.2 }
      | _ => pure p) cur
  | _ => pure cur

/-- The defaults `def` of `Plugin.UnmarshalJSON`. -/
def Plugin.defaults : Plugin :=
  { Diff := "git diff --name-only HEAD~1", Wait := false, LogLevel := "info", Interpolation := true }

/-- `func (plugin *Plugin) UnmarshalJSON(data []byte) error`: the new value of
`*plugin` and the returned error. -/
def Plugin.UnmarshalJSON (env : EnvFn) (data : JSON) : Run (Plugin × GoError) := do
  let plugin ← decodePlainPlugin Plugin.defaults data
  let (parseResult, err) ← parseEnv env plugin.RawEnv
  if err.isSome then
    pure (plugin, some "failed to parse plugin configuration")
  else
    let plugin := { plugin with Env := parseResult, RawEnv := JSON.null }
    let watch ← normalizeWatches env plugin.Env plugin.Watch
    pure ({ plugin with Watch := watch }, none)

/-- Whether a key of the root document selects this plugin:
`strings.HasPrefix(key, pluginName)`. -/
def matchesPlugin (key : String) : Bool := pluginName.toList.isPrefixOf key.toList

/-- The inner loop of `initializePlugin` over the entries of one map, given
in the order `range` visits them: the first key visited with the plugin name
in front decides. `none` means no key of the map matched. Go does not specify
the order in which `range` visits a map, so what holds of the program is what
holds for every order of the entries of a map. -/
def scanEntries (env : EnvFn) : List (String × JSON) → Run (Option (Plugin × GoError))
  | [] => pure none
  | (key, pluginConfig) :: rest =>
    if matchesPlugin key then do
      let (plugin, err) ← Plugin.UnmarshalJSON env pluginConfig
      if err.isSome then
        pure (some ({}, some "failed to parse plugin configuration"))
      else
        pure (some (plugin, none))
    else
      scanEntries env rest

/-- The outer loop of `initializePlugin` over the maps of the document. -/
def scanConfigs (env : EnvFn) : List (List (String × JSON)) → Run (Plugin × GoError)
  | [] => pure ({}, some "could not initialize plugin")
  | p :: rest => do
    match ← scanEntries env p with
    | some result => pure result
    | none => scanConfigs env rest

/-- `func initializePlugin(data string) (Plugin, error)`. The argument is the
outcome of decoding `data` into `[]map[string]json.RawMessage`: `none` when
that fails, else the maps in document order, each given by its entries in the
order `range` visits them (any permutation of the entries of the map, see
`scanEntries`). -/
def initializePlugin (env : EnvFn) (data : Option (List (List (String × JSON)))) :
    Run (Plugin × GoError) :=
  match data with
  | none => pure ({}, some "failed to parse plugin configuration")
  | some pluginConfigs => scanConfigs env pluginConfigs

/-! ## Vocabulary of the properties and sample inputs -/

/-- Writing a list of entries one after the other. -/
def Entries.setAll (es : Entries) (kvs : Entries) : Entries :=
  kvs.foldl (fun m kv => Entries.set m kv.1 kv.2) es

/-- One iteration of the merge loop of `appendEnv` on the destination map. -/
def mergeStep (m : GoMap) (kv : String × String) : GoMap :=
  (if m.isNone then GoMap.make else m).store kv.1 kv.2

/-- The destination map after the merge loop of `appendEnv`. -/
def mergeEnv (own top : GoMap) : GoMap := (GoMap.range top).foldl mergeStep own

/-- The rule `appendEnv` leaves behind, given the maps `own` and `bown` parsed
from the rule's raw step-level and build-level env. -/
def appendEnvResult (watch : WatchConfig) (top own bown : GoMap) : WatchConfig :=
  { RawPath := JSON.null, Paths := watch.Paths,
    Step := { watch.Step with
      RawEnv := JSON.null,
      Env := if watch.Step.Command ≠ "" then mergeEnv own top else own,
      Build := { watch.Step.Build with
        RawEnv := JSON.null,
        Env := if watch.Step.Command = "" ∧ watch.Step.Trigger ≠ "" then mergeEnv bown top
               else bown } } }

/-- An empty process environment: every lookup yields the fallback. -/
def envEmpty : EnvFn := fun _ fallback => fallback

/-- A sample top-level env. -/
def sampleTop : GoMap := some [("X", "top"), ("Z", "3")]

/-- A sample command-kind rule with its own env. -/
def sampleCommandRule : WatchConfig :=
  { RawPath := JSON.str "src/",
    Step := { Command := "test.sh", RawEnv := JSON.arr [JSON.str "X=rule", JSON.str "Y=1"],
              Build := { RawEnv := JSON.arr [JSON.str "B=b"] } } }

/-- A sample trigger-kind rule with its own env. -/
def sampleTriggerRule : WatchConfig :=
  { RawPath := JSON.str "src/",
    Step := { Trigger := "deploy", RawEnv := JSON.arr [JSON.str "X=rule", JSON.str "Y=1"],
              Build := { RawEnv := JSON.arr [JSON.str "X=b", JSON.str "B=b"] } } }

/-- The map write the loop body of `parseEnv` performs for a string token:
`none` when the token writes nothing. -/
def tokenWrite (env : EnvFn) (tok : String) : Option (String × String) :=
  match Split tok '=' with
  | [] => none
  | [s0] => if 0 < (TrimSpace s0).length then some (TrimSpace s0, env (TrimSpace s0) "") else none
  | s0 :: v0 :: _ => some (TrimSpace s0, TrimSpace v0)

/-- The map after the writes of a list of string tokens, in order. -/
def applyWrites (env : EnvFn) (toks : List String) (es : Entries) : Entries :=
  toks.foldl (fun m t =>
    match tokenWrite env t with
    | some kv => Entries.set m kv.1 kv.2
    | none => m) es

/-- A process environment in which only `B` is set, to `2`. -/
def envSample : EnvFn := fun name fallback => if name = "B" then "2" else fallback

/-- Whether a raw value is nil. -/
def JSON.isNull : JSON → Bool
  | JSON.null => true
  | _ => false

/-- Whether a raw value is a sequence (`[]interface{}`). -/
def JSON.isSeq : JSON → Bool
  | JSON.arr _ => true
  | _ => false

/-- Whether a raw value is a string. -/
def JSON.isStr : JSON → Bool
  | JSON.str _ => true
  | _ => false

/-- An `env` field that is present and not sequence-shaped. -/
def invalidEnvShape (raw : JSON) : Bool := !raw.isNull && !raw.isSeq

/-- A `path` field that is present and neither a string nor a sequence. -/
def otherPathShape (raw : JSON) : Bool := !raw.isNull && !raw.isStr && !raw.isSeq

/-- A raw value all of whose elements are strings if it is a sequence (so
that no `v.(string)` assertion over its elements fails). -/
def stringsIfSeq : JSON → Bool
  | JSON.arr items => items.all JSON.isStr
  | _ => true

/-- A raw env value read as absent when its shape is invalid. -/
def dropInvalidEnv (raw : JSON) : JSON := if invalidEnvShape raw then JSON.null else raw

/-- A rule with its step-level and build-level raw env read as absent when
their shape is invalid. -/
def WatchConfig.dropInvalidEnvs (w : WatchConfig) : WatchConfig :=
  { w with Step := { w.Step with
      RawEnv := dropInvalidEnv w.Step.RawEnv,
      Build := { w.Step.Build with RawEnv := dropInvalidEnv w.Step.Build.RawEnv } } }

/-- A block with a string for top-level `env` and a `soft_fail` sequence
holding a number. -/
def blockBadEnvSoftFail : JSON :=
  JSON.obj [("env", JSON.str "FOO=1"),
    ("watch", JSON.arr [JSON.obj [("path", JSON.str "src/"),
      ("config", JSON.obj [("command", JSON.str "test.sh"),
        ("soft_fail", JSON.arr [JSON.num 1])])]])]

/-- A block with a string for top-level `env`. -/
def blockBadEnv : JSON :=
  JSON.obj [("env", JSON.str "FOO=1"),
    ("watch", JSON.arr [JSON.obj [("path", JSON.str "src/"),
      ("config", JSON.obj [("command", JSON.str "test.sh")])]])]

/-- A block whose first rule has a string for its step-level `env` and whose
second rule has a number for its build-level `env`. -/
def blockNestedBadEnv : JSON :=
  JSON.obj [("env", JSON.arr [JSON.str "FOO=1"]),
    ("watch", JSON.arr [
      JSON.obj [("path", JSON.str "src/"),
        ("config", JSON.obj [("command", JSON.str "test.sh"), ("env", JSON.str "A=1")])],
      JSON.obj [("path", JSON.str "lib/"),
        ("config", JSON.obj [("trigger", JSON.str "deploy"),
          ("build", JSON.obj [("env", JSON.num 5)])])]])]

/-- A block whose rules have a number, a boolean and an object for `path`. -/
def blockOtherPath : JSON :=
  JSON.obj [("watch", JSON.arr [
      JSON.obj [("path", JSON.num 5),
        ("config", JSON.obj [("command", JSON.str "test.sh")])],
      JSON.obj [("path", JSON.bool true),
        ("config", JSON.obj [("command", JSON.str "lint.sh")])],
      JSON.obj [("path", JSON.obj [("a", JSON.str "b")]),
        ("config", JSON.obj [("trigger", JSON.str "deploy")])]])]

/-- A key of the root document that selects this plugin. -/
def sampleKey : String := "github.com/chronotc/monorepo-diff#v1.0.0"

/-- The decoding of `blockNestedBadEnv` into the plain `Plugin`. -/
def decodedNestedBadEnv : Plugin :=
  { Plugin.defaults with
    RawEnv := JSON.arr [JSON.str "FOO=1"],
    Watch := [
      { RawPath := JSON.str "src/", Step := { Command := "test.sh", RawEnv := JSON.str "A=1" } },
      { RawPath := JSON.str "lib/",
        Step := { Trigger := "deploy", Build := { RawEnv := JSON.num 5 } } }] }

/-- The decoding of `blockOtherPath` into the plain `Plugin`. -/
def decodedOtherPath : Plugin :=
  { Plugin.defaults with
    Watch := [
      { RawPath := JSON.num 5, Step := { Command := "test.sh" } },
      { RawPath := JSON.bool true, Step := { Command := "lint.sh" } },
      { RawPath := JSON.obj [("a", JSON.str "b")], Step := { Trigger := "deploy" } }] }

/-- A rule whose raw path is a sequence of two strings. -/
def sampleSeqPathRule : WatchConfig :=
  { RawPath := JSON.arr (["a", "b"].map JSON.str), Step := { Command := "test.sh" } }

/-- Whether the result of `Step.MarshalYAML` is the group wrapper. -/
def YAMLValue.isGroup : YAMLValue → Bool
  | YAMLValue.group _ => true
  | YAMLValue.step _ => false

/-- Whether a raw value is a boolean. -/
def JSON.isBool : JSON → Bool
  | JSON.bool _ => true
  | _ => false

/-- The `soft_fail` value `encoding/json` leaves in the plain copy of the
step, before the type switch of `Step.UnmarshalJSON`. -/
def rawSoftFail (data : JSON) : SoftFailValue := (decodePlainStep {} data).SoftFail

/-- A step configuration with `soft_fail: true`. -/
def stepSoftFailTrue : JSON :=
  JSON.obj [("command", JSON.str "test.sh"), ("soft_fail", JSON.bool true)]

/-- A step configuration whose `soft_fail` holds a record with `exit_status`
2 and a record without `exit_status`. -/
def stepSoftFailRecords : JSON :=
  JSON.obj [("command", JSON.str "test.sh"),
    ("soft_fail", JSON.arr [JSON.obj [("exit_status", JSON.num 2)], JSON.obj []])]

/-- A step configuration whose `soft_fail` is a string. -/
def stepSoftFailString : JSON :=
  JSON.obj [("command", JSON.str "test.sh"), ("soft_fail", JSON.str "always")]

/-- A step with a group label. -/
def sampleGroupedStep : Step :=
  { Group := "build", Command := "make", Label := "compile", Env := some [("FOO", "1")] }

/-- A rule that has neither a command nor a trigger. -/
def sampleNeitherRule : WatchConfig :=
  { RawPath := JSON.str "src/",
    Step := { Label := "noop", RawEnv := JSON.arr [JSON.str "X=rule"],
              Build := { RawEnv := JSON.arr [JSON.str "B=b"] } } }

/-- A rule that has both a command and a trigger. -/
def sampleBothRule : WatchConfig :=
  { RawPath := JSON.str "src/",
    Step := { Command := "test.sh", Trigger := "deploy",
              RawEnv := JSON.arr [JSON.str "X=rule", JSON.str "Y=1"],
              Build := { Branch := "dev", RawEnv := JSON.arr [JSON.str "B=b"] } } }

/-- The guarded call of `setBuild` in the loop of `Plugin.UnmarshalJSON`:
`if plugin.Watch[i].Step.Trigger != "" { setBuild(&plugin.Watch[i].Step.Build) }`. -/
def buildFallback (env : EnvFn) (w : WatchConfig) : WatchConfig :=
  if w.Step.Trigger ≠ "" then
    { w with Step := { w.Step with Build := setBuild env w.Step.Build } }
  else w

/-- A process environment in which the three build variables are set. -/
def envBuildkite : EnvFn := fun name fallback =>
  if name = "BUILDKITE_MESSAGE" then "msg"
  else if name = "BUILDKITE_BRANCH" then "main"
  else if name = "BUILDKITE_COMMIT" then "abc123"
  else fallback

/-- A trigger-kind rule that supplies its own branch only. -/
def sampleTriggerBranchRule : WatchConfig :=
  { RawPath := JSON.str "src/",
    Step := { Trigger := "deploy", Build := { Branch := "dev" } } }

/-- The block of the end-to-end example: one command rule and a top-level
env. -/
def blockEndToEnd : JSON :=
  JSON.obj [("watch", JSON.arr [JSON.obj [("path", JSON.str "src/"),
      ("config", JSON.obj [("command", JSON.str "test.sh")])]]),
    ("env", JSON.arr [JSON.str "FOO=1"])]

/-- A root document in which the plugin is selected three times: the first
matching block is well formed, the later ones are not. -/
def sampleDocument : List (List (String × JSON)) :=
  [[("github.com/other/plugin#v1.0.0", JSON.obj [("env", JSON.num 1)])],
   [("docker#v3.0.0", JSON.null), (sampleKey, blockEndToEnd),
    ("github.com/chronotc/monorepo-diff#v2.0.0", blockBadEnvSoftFail)],
   [(sampleKey, blockBadEnv)]]

/-- The model `Plugin.UnmarshalJSON` builds from `blockNestedBadEnv` in an
empty process environment. -/
def normalizedNestedBadEnv : Plugin :=
  { Plugin.defaults with
    Env := some [("FOO", "1")],
    Watch := [
      { Paths := ["src/"], Step := { Command := "test.sh", Env := some [("FOO", "1")] } },
      { Paths := ["lib/"],
        Step := { Trigger := "deploy", Build := { Env := some [("FOO", "1")] } } }] }

/-- The text of a token before its first `=` (the whole token when it has
no `=`). -/
def beforeEq (tok : String) : String :=
  String.mk (tok.toList.takeWhile (fun c => c ≠ '='))

/-- The members of a raw block: those of a JSON object, none for any other
value. -/
def JSON.members : JSON → List (String × JSON)
  | JSON.obj members => members
  | _ => []

/-- Whether a key of a plugin block names a field of `Plugin`. -/
def knownPluginKey (key : String) : Bool := (findField pluginFields key).isSome

/-- The decoding of one member of a plugin block into the plain `Plugin` (the
body of the loop of `decodePlainPlugin`). -/
def decodePluginMember (p : Plugin) (kv : String × JSON) : Run Plugin :=
  match findField pluginFields kv.1 with
  | some "Diff" => pure { p with Diff := decodeString p.Diff kv.2 }
  | some "Wait" => pure { p with Wait := decodeBool p.Wait kv.2 }
  | some "log_level" => pure { p with LogLevel := decodeString p.LogLevel kv.2 }
  | some "Interpolation" => pure { p with Interpolation := decodeBool p.Interpolation kv.2 }
  | some "Hooks" => pure { p with Hooks := decodeHooks p.Hooks kv.2 }
  | some "Watch" => do
    let ws ← decodeWatch p.Watch kv.2
    pure { p with Watch := ws }
  | some "env" => pure { p with RawEnv := kv.2 }
  | some "Env" => pure { p with Env := decodeStringMap p.Env kv.2 }
  | _ => pure p

/-- A block that sets `diff` and `interpolation`, leaves `wait` and
`log_level` out, and carries two keys that name no field. -/
def blockWithUnknownKeys : JSON :=
  JSON.obj [("dif", JSON.str "typo"), ("diff", JSON.str "git diff --name-only main"),
    ("LogLevel", JSON.str "debug"), ("interpolation", JSON.bool false),
    ("watch", JSON.arr [JSON.obj [("path", JSON.str "src/"),
      ("config", JSON.obj [("command", JSON.str "test.sh")])]])]

/-- The model `Plugin.UnmarshalJSON` builds from `blockWithUnknownKeys`. -/
def normalizedWithUnknownKeys : Plugin :=
  { Diff := "git diff --name-only main", Wait := false, LogLevel := "info",
    Interpolation := false,
    Watch := [{ Paths := ["src/"], Step := { Command := "test.sh" } }] }

/-- The JSON field names of `WatchConfig`, in declaration order. -/
def watchFields : List String := ["path", "Paths", "config"]

/-- Whether at most one member of an object selects the field `name`. -/
def selectedOnce (names : List String) (name : String) (members : List (String × JSON)) :
    Bool :=
  decide (members.countP (fun kv => findField names kv.1 == some name) ≤ 1)

/-- A step configuration in which `artifacts` is selected at most once. -/
def stepSliceKeysOnce (config : JSON) : Bool :=
  selectedOnce stepFields "Artifacts" config.members

/-- A watch rule in which `paths` is selected at most once, and so is
`artifacts` in every `config` member. -/
def watchSliceKeysOnce (rule : JSON) : Bool :=
  selectedOnce watchFields "Paths" rule.members
    && rule.members.all (fun kv =>
        findField watchFields kv.1 != some "config" || stepSliceKeysOnce kv.2)

/-- A plugin block in which no slice field is selected twice: `hooks` and
`watch` at most once in the block, `paths` at most once in every watch rule,
`artifacts` at most once in every step. On such a block every slice is nil
when it is decoded, so no element of an earlier decoding is reused. -/
def sliceKeysOnce (block : JSON) : Bool :=
  selectedOnce pluginFields "Hooks" block.members
    && selectedOnce pluginFields "Watch" block.members
    && block.members.all (fun kv =>
        findField pluginFields kv.1 != some "Watch" ||
          match kv.2 with
          | JSON.arr items => items.all watchSliceKeysOnce
          | _ => true)

/-- A block that selects `watch` twice. -/
def blockRepeatedWatch : JSON :=
  JSON.obj [("watch", JSON.arr [JSON.obj [("path", JSON.arr [JSON.num 1])]]),
    ("watch", JSON.arr [JSON.obj [("path", JSON.num 5)]])]

/-- The model `Plugin.UnmarshalJSON` builds from `blockEndToEnd` in an empty
process environment. -/
def normalizedEndToEnd : Plugin :=
  { Plugin.defaults with
    Env := some [("FOO", "1")],
    Watch := [{ Paths := ["src/"], Step := { Command := "test.sh", Env := some [("FOO", "1")] } }] }

/-- A root document whose second map holds one key of this plugin, visited
after another plugin's key, and whose third map selects the plugin again. -/
def sampleDocumentOneKey : List (List (String × JSON)) :=
  [[("github.com/other/plugin#v1.0.0", JSON.obj [("env", JSON.num 1)])],
   [("docker#v3.0.0", JSON.null), (sampleKey, blockEndToEnd)],
   [(sampleKey, blockBadEnvSoftFail)]]

/-- The step `Step.UnmarshalJSON` builds from `stepSoftFailRecords`. -/
def resolvedSoftFailRecords : Step :=
  { Command := "test.sh",
    SoftFail := SoftFailValue.list [{ ExitStatus := JSON.num 2 }, { ExitStatus := JSON.null }] }

/-! ## Properties -/

theorem Entries.get_set (es : Entries) (a v k : String) :
    Entries.get (Entries.set es a v) k = if a = k then some v else Entries.get es k := by
  induction es with
  | nil => simp [Entries.set, Entries.get]
  | cons e rest ih =>
    obtain ⟨k', v'⟩ := e
    by_cases h : k' = a
    · subst h
      by_cases hk : k' = k <;> simp [Entries.set, Entries.get, hk]
    · by_cases hk : k' = k
      · subst hk
        have : ¬ a = k' := fun h' => h h'.symm
        simp [Entries.set, Entries.get, h, this]
      · simp [Entries.set, Entries.get, h, hk, ih]

theorem Entries.get_setAll_congr (kvs : Entries) (es1 es2 : Entries) (k : String)
    (h : Entries.get es1 k = Entries.get es2 k) :
    Entries.get (Entries.setAll es1 kvs) k = Entries.get (Entries.setAll es2 kvs) k := by
  induction kvs generalizing es1 es2 with
  | nil => simpa [Entries.setAll] using h
  | cons e rest ih =>
    have h1 : ∀ es : Entries, Entries.setAll es (e :: rest) = Entries.setAll (Entries.set es e.1 e.2) rest :=
      fun _ => rfl
    rw [h1, h1]
    apply ih
    rw [Entries.get_set, Entries.get_set, h]

theorem Entries.get_setAll_filter (kvs : Entries) (a : String) (es : Entries) (k : String) :
    Entries.get (Entries.setAll es (kvs.filter (fun e => e.1 ≠ a))) k
      = if k = a then Entries.get es k else Entries.get (Entries.setAll es kvs) k := by
  induction kvs generalizing es with
  | nil => simp [Entries.setAll]
  | cons e rest ih =>
    obtain ⟨k', v'⟩ := e
    have h1 : ∀ (es : Entries) (l : Entries),
        Entries.setAll es ((k', v') :: l) = Entries.setAll (Entries.set es k' v') l :=
      fun _ _ => rfl
    by_cases h : k' = a
    · subst h
      have h2 : ((k', v') :: rest).filter (fun e => e.1 ≠ k') = rest.filter (fun e => e.1 ≠ k') := by
        simp
      rw [h1, h2, ih es]
      by_cases hk : k = k'
      · simp [hk]
      · simp only [hk, if_false]
        apply Entries.get_setAll_congr
        have : ¬ k' = k := fun h' => hk h'.symm
        simp [Entries.get_set, this]
    · have h2 : ((k', v') :: rest).filter (fun e => e.1 ≠ a)
          = (k', v') :: rest.filter (fun e => e.1 ≠ a) := by
        simp [h]
      rw [h1, h2, h1, ih (Entries.set es k' v')]
      by_cases hk : k = a
      · subst hk
        simp [Entries.get_set, h]
      · simp [hk]

theorem Entries.get_setAll_range (top es : Entries) (k : String) :
    Entries.get (Entries.setAll es (Entries.range top)) k
      = match Entries.get top k with
        | some v => some v
        | none => Entries.get es k := by
  induction top generalizing es with
  | nil => simp [Entries.range, Entries.setAll, Entries.get]
  | cons e rest ih =>
    obtain ⟨k', v'⟩ := e
    have h1 : Entries.setAll es (Entries.range ((k', v') :: rest))
        = Entries.setAll (Entries.set es k' v') ((Entries.range rest).filter (fun e => e.1 ≠ k')) := rfl
    rw [h1, Entries.get_setAll_filter]
    by_cases hk : k = k'
    · subst hk
      simp [Entries.get_set, Entries.get]
    · have hk' : ¬ k' = k := fun h => hk h.symm
      simp only [hk, if_false, ih, Entries.get, hk', Entries.get_set]

theorem foldl_appendEnvStep_command (kvs : Entries) (w : WatchConfig)
    (h : w.Step.Command ≠ "") :
    kvs.foldl appendEnvStep w
      = { w with Step := { w.Step with Env := kvs.foldl mergeStep w.Step.Env } } := by
  induction kvs generalizing w with
  | nil => rfl
  | cons kv rest ih =>
    have hs : appendEnvStep w kv
        = { w with Step := { w.Step with Env := mergeStep w.Step.Env kv } } := by
      simp [appendEnvStep, h, mergeStep]
    rw [List.foldl_cons, hs, ih _ (by simpa using h)]
    rfl

theorem foldl_appendEnvStep_trigger (kvs : Entries) (w : WatchConfig)
    (h : w.Step.Command = "") (ht : w.Step.Trigger ≠ "") :
    kvs.foldl appendEnvStep w
      = { w with Step := { w.Step with
            Build := { w.Step.Build with Env := kvs.foldl mergeStep w.Step.Build.Env } } } := by
  induction kvs generalizing w with
  | nil => rfl
  | cons kv rest ih =>
    have hs : appendEnvStep w kv
        = { w with Step := { w.Step with
              Build := { w.Step.Build with Env := mergeStep w.Step.Build.Env kv } } } := by
      simp [appendEnvStep, h, ht, mergeStep]
    rw [List.foldl_cons, hs, ih _ (by simpa using h) (by simpa using ht)]
    rfl

theorem foldl_appendEnvStep_neither (kvs : Entries) (w : WatchConfig)
    (h : w.Step.Command = "") (ht : w.Step.Trigger = "") :
    kvs.foldl appendEnvStep w = w := by
  induction kvs with
  | nil => rfl
  | cons kv rest ih =>
    have hs : appendEnvStep w kv = w := by simp [appendEnvStep, h, ht]
    rw [List.foldl_cons, hs, ih]

theorem GoMap.get_foldl_mergeStep (kvs : Entries) (m : GoMap) (k : String) :
    GoMap.get (kvs.foldl mergeStep m) k = Entries.get (Entries.setAll (m.getD []) kvs) k := by
  induction kvs generalizing m with
  | nil => cases m <;> simp [GoMap.get, Entries.setAll, Entries.get]
  | cons kv rest ih =>
    rw [List.foldl_cons, ih]
    have : (mergeStep m kv).getD [] = Entries.set (m.getD []) kv.1 kv.2 := by
      cases m <;> simp [mergeStep, GoMap.make, GoMap.store]
    rw [this]
    rfl

theorem GoMap.get_mergeEnv (own top : GoMap) (k : String) :
    GoMap.get (mergeEnv own top) k
      = match GoMap.get top k with
        | some v => some v
        | none => GoMap.get own k := by
  unfold mergeEnv
  rw [GoMap.get_foldl_mergeStep]
  cases top with
  | none =>
    cases own <;> simp [GoMap.range, GoMap.get, Entries.setAll, Entries.get]
  | some es =>
    simp only [GoMap.range, GoMap.get]
    rw [Entries.get_setAll_range]
    cases own <;> simp [GoMap.get, Entries.get]

/-- What `appendEnv` returns once both raw env fields have been parsed. -/
theorem appendEnv_eq (env : EnvFn) (watch : WatchConfig) (top own bown : GoMap)
    (e1 e2 : GoError)
    (hown : parseEnv env watch.Step.RawEnv = Except.ok (own, e1))
    (hbown : parseEnv env watch.Step.Build.RawEnv = Except.ok (bown, e2)) :
    appendEnv env watch top = Except.ok (appendEnvResult watch top own bown) := by
  unfold appendEnv appendEnvResult
  simp only [hown, hbown, bind, Except.bind, pure, Except.pure]
  by_cases hc : watch.Step.Command = ""
  · by_cases ht : watch.Step.Trigger = ""
    · rw [foldl_appendEnvStep_neither _ _ (by simpa using hc) (by simpa using ht)]
      simp [hc, ht]
    · rw [foldl_appendEnvStep_trigger _ _ (by simpa using hc) (by simpa using ht)]
      simp [hc, ht, mergeEnv]
  · rw [foldl_appendEnvStep_command _ _ (by simpa using hc)]
    simp [hc, mergeEnv]

/-- C1. For a command-kind rule (command non-empty, trigger empty) `appendEnv`
completes and leaves in the step's `Env`, for every key, the top-level value
if the top-level env has the key and the rule's own value (from
`parseEnv(step.RawEnv)`) otherwise; `Build.Env` is `parseEnv(Build.RawEnv)`
unchanged. -/
theorem appendEnv_command_rule (env : EnvFn) (top : GoMap) (watch : WatchConfig)
    (own bown : GoMap) (e1 e2 : GoError)
    (hcmd : watch.Step.Command ≠ "") (_htrig : watch.Step.Trigger = "")
    (hown : parseEnv env watch.Step.RawEnv = Except.ok (own, e1))
    (hbown : parseEnv env watch.Step.Build.RawEnv = Except.ok (bown, e2)) :
    ∃ w, appendEnv env watch top = Except.ok w
      ∧ (∀ k, GoMap.get w.Step.Env k
            = match GoMap.get top k with
              | some v => some v
              | none => GoMap.get own k)
      ∧ w.Step.Build.Env = bown := by
  refine ⟨_, appendEnv_eq env watch top own bown e1 e2 hown hbown, ?_, ?_⟩
  · intro k
    simp only [appendEnvResult, hcmd, ne_eq, not_false_eq_true, if_true]
    exact GoMap.get_mergeEnv own top k
  · simp [appendEnvResult, hcmd]

theorem appendEnv_command_rule_witness :
    ∃ w, appendEnv envEmpty sampleCommandRule sampleTop = Except.ok w
      ∧ (∀ k, GoMap.get w.Step.Env k
            = match GoMap.get sampleTop k with
              | some v => some v
              | none => GoMap.get (some [("X", "rule"), ("Y", "1")]) k)
      ∧ w.Step.Build.Env = some [("B", "b")] :=
  appendEnv_command_rule envEmpty sampleTop sampleCommandRule
    (some [("X", "rule"), ("Y", "1")]) (some [("B", "b")]) none none
    (by decide) (by decide) (by rfl) (by rfl)

/-- C2. For a trigger-kind rule (trigger non-empty, command empty) `appendEnv`
completes and leaves in `Build.Env` every top-level key with its top-level
value and, for every other key, exactly the binding of
`parseEnv(Build.RawEnv)`; the step's `Env` is `parseEnv(step.RawEnv)`
unchanged. -/
theorem appendEnv_trigger_rule (env : EnvFn) (top : GoMap) (watch : WatchConfig)
    (own bown : GoMap) (e1 e2 : GoError)
    (htrig : watch.Step.Trigger ≠ "") (hcmd : watch.Step.Command = "")
    (hown : parseEnv env watch.Step.RawEnv = Except.ok (own, e1))
    (hbown : parseEnv env watch.Step.Build.RawEnv = Except.ok (bown, e2)) :
    ∃ w, appendEnv env watch top = Except.ok w
      ∧ (∀ k v, GoMap.get top k = some v → GoMap.get w.Step.Build.Env k = some v)
      ∧ (∀ k, GoMap.get top k = none → GoMap.get w.Step.Build.Env k = GoMap.get bown k)
      ∧ w.Step.Env = own := by
  refine ⟨_, appendEnv_eq env watch top own bown e1 e2 hown hbown, ?_, ?_, ?_⟩
  · intro k v hk
    simp only [appendEnvResult, hcmd, htrig, ne_eq, not_false_eq_true, and_self, if_true]
    rw [GoMap.get_mergeEnv, hk]
  · intro k hk
    simp only [appendEnvResult, hcmd, htrig, ne_eq, not_false_eq_true, and_self, if_true]
    rw [GoMap.get_mergeEnv, hk]
  · simp [appendEnvResult, hcmd]

theorem appendEnv_trigger_rule_witness :
    ∃ w, appendEnv envEmpty sampleTriggerRule sampleTop = Except.ok w
      ∧ (∀ k v, GoMap.get sampleTop k = some v → GoMap.get w.Step.Build.Env k = some v)
      ∧ (∀ k, GoMap.get sampleTop k = none
            → GoMap.get w.Step.Build.Env k = GoMap.get (some [("X", "b"), ("B", "b")]) k)
      ∧ w.Step.Env = some [("X", "rule"), ("Y", "1")] :=
  appendEnv_trigger_rule envEmpty sampleTop sampleTriggerRule
    (some [("X", "rule"), ("Y", "1")]) (some [("X", "b"), ("B", "b")]) none none
    (by decide) (by decide) (by rfl) (by rfl)

theorem parseEnvStep_str (env : EnvFn) (es : Entries) (tok : String) :
    parseEnvStep env es (JSON.str tok)
      = Except.ok (match tokenWrite env tok with
                   | some kv => Entries.set es kv.1 kv.2
                   | none => es) := by
  unfold parseEnvStep tokenWrite
  rcases hsplit : Split tok '=' with _ | ⟨s0, _ | ⟨v0, rest⟩⟩
  · exfalso
    unfold Split at hsplit
    have : splitChars '=' tok.toList ≠ [] := by
      cases h : tok.toList with
      | nil => simp [splitChars]
      | cons c cs =>
        unfold splitChars
        split
        · simp
        · split <;> simp
    exact this (List.map_eq_nil_iff.mp hsplit)
  · by_cases hk : 0 < (TrimSpace s0).length <;> simp [hsplit, hk, pure, Except.pure]
  · simp [hsplit, pure, Except.pure]

theorem parseEnvLoop_strs (env : EnvFn) (toks : List String) (es : Entries) :
    parseEnvLoop env (toks.map JSON.str) es = Except.ok (applyWrites env toks es) := by
  induction toks generalizing es with
  | nil => rfl
  | cons t rest ih =>
    simp only [List.map_cons, parseEnvLoop, parseEnvStep_str, bind, Except.bind]
    rw [ih]
    rfl

theorem parseEnv_strs (env : EnvFn) (toks : List String) :
    parseEnv env (JSON.arr (toks.map JSON.str)) = Except.ok (some (applyWrites env toks []), none) := by
  simp [parseEnv, parseEnvLoop_strs, bind, Except.bind, pure, Except.pure]

theorem applyWrites_append (env : EnvFn) (xs ys : List String) (es : Entries) :
    applyWrites env (xs ++ ys) es = applyWrites env ys (applyWrites env xs es) := by
  simp [applyWrites, List.foldl_append]

theorem get_applyWrites_of_no_write (env : EnvFn) (k : String) (toks : List String) (es : Entries)
    (h : ∀ t ∈ toks, ∀ v, tokenWrite env t ≠ some (k, v)) :
    Entries.get (applyWrites env toks es) k = Entries.get es k := by
  induction toks generalizing es with
  | nil => rfl
  | cons t rest ih =>
    have hcons : applyWrites env (t :: rest) es
        = applyWrites env rest (match tokenWrite env t with
            | some kv => Entries.set es kv.1 kv.2
            | none => es) := rfl
    rw [hcons, ih _ (fun t' ht' => h t' (List.mem_cons_of_mem _ ht'))]
    have ht := h t (List.mem_cons_self _ _)
    cases hw : tokenWrite env t with
    | none => rfl
    | some kv =>
      obtain ⟨k', v'⟩ := kv
      have hne : ¬ k' = k := by
        intro hk
        subst hk
        exact ht v' hw
      simp [Entries.get_set, hne]

/-- Last write wins: the binding of `k` after the tokens `pre ++ tok :: post`
when `tok` writes `(k, v)` and no token of `post` writes `k`. -/
theorem get_applyWrites_last (env : EnvFn) (pre post : List String) (tok k v : String)
    (hw : tokenWrite env tok = some (k, v))
    (hpost : ∀ t ∈ post, ∀ v', tokenWrite env t ≠ some (k, v')) :
    Entries.get (applyWrites env (pre ++ tok :: post) []) k = some v := by
  rw [applyWrites_append]
  have hcons : ∀ es, applyWrites env (tok :: post) es
      = applyWrites env post (Entries.set es k v) := by
    intro es
    show applyWrites env post (match tokenWrite env tok with
            | some kv => Entries.set es kv.1 kv.2
            | none => es) = _
    rw [hw]
  rw [hcons, get_applyWrites_of_no_write env k post _ hpost, Entries.get_set]
  simp

theorem splitChars_of_not_mem (sep : Char) (cs : List Char) (h : sep ∉ cs) :
    splitChars sep cs = [cs] := by
  induction cs with
  | nil => rfl
  | cons c rest ih =>
    have hc : ¬ c = sep := fun e => h (by simp [e])
    have hr : sep ∉ rest := fun e => h (List.mem_cons_of_mem _ e)
    simp [splitChars, hc, ih hr]

theorem Split_of_not_mem (tok : String) (h : '=' ∉ tok.toList) : Split tok '=' = [tok] := by
  unfold Split
  rw [splitChars_of_not_mem _ _ h]
  rfl

theorem length_pos_of_ne_empty (s : String) (h : s ≠ "") : 0 < s.length := by
  obtain ⟨data⟩ := s
  cases data with
  | nil => exact absurd rfl h
  | cons c cs => simp [String.length]

theorem tokenWrite_bare (env : EnvFn) (tok : String) (h : '=' ∉ tok.toList)
    (hne : TrimSpace tok ≠ "") :
    tokenWrite env tok = some (TrimSpace tok, env (TrimSpace tok) "") := by
  have hlen : 0 < (TrimSpace tok).length := length_pos_of_ne_empty _ hne
  simp [tokenWrite, Split_of_not_mem tok h, hlen]

theorem exists_last_of_exists {α : Type} (P : α → Prop) (xs : List α) (h : ∃ x ∈ xs, P x) :
    ∃ pre x post, xs = pre ++ x :: post ∧ P x ∧ ∀ y ∈ post, ¬ P y := by
  induction xs with
  | nil => simp at h
  | cons a rest ih =>
    by_cases hr : ∃ x ∈ rest, P x
    · obtain ⟨pre, x, post, hxs, hx, hpost⟩ := ih hr
      exact ⟨a :: pre, x, post, by simp [hxs], hx, hpost⟩
    · obtain ⟨x, hx, hPx⟩ := h
      have hxa : x = a := by
        rcases List.mem_cons.mp hx with h1 | h1
        · exact h1
        · exact absurd ⟨x, h1, hPx⟩ hr
      subst hxa
      exact ⟨[], x, rest, rfl, hPx, fun y hy hPy => hr ⟨y, hy, hPy⟩⟩

/-- C3 (failing input). On the one-token list `["A=1=2"]` `parseEnv` stores
for `A` the text between the first and the second `=`, namely `1`, and drops
`=2`: the value is not everything after the first `=`. -/
theorem parseEnv_value_cut_at_second_eq (env : EnvFn) :
    parseEnv env (JSON.arr [JSON.str "A=1=2"]) = Except.ok (some [("A", "1")], none)
      ∧ GoMap.get (some [("A", "1")]) "A" ≠ some "1=2" := by
  refine ⟨rfl, ?_⟩
  decide

/-- C4 (counterexample). A token without `=` is not always written under the
token itself: the empty token writes nothing, and the token ` B` (with a
leading blank) is written under the trimmed key `B`, not under ` B`. -/
theorem parseEnv_bare_token_counterexample :
    ('=' ∉ "".toList
      ∧ parseEnv envSample (JSON.arr [JSON.str ""]) = Except.ok (some [], none)
      ∧ GoMap.get (some []) "" ≠ some (envSample "" ""))
    ∧ ('=' ∉ " B".toList
      ∧ parseEnv envSample (JSON.arr [JSON.str " B"]) = Except.ok (some [("B", "2")], none)
      ∧ GoMap.get (some [("B", "2")]) " B" ≠ some (envSample " B" "")) := by
  refine ⟨⟨by decide, rfl, by decide⟩, ⟨by decide, rfl, by decide⟩⟩

/-- C4 (amended). In a list of string tokens, a token without `=` whose text
is not empty after trimming white space is a bare key, the trimmed token: if
no later token writes that key, `parseEnv` maps it to `env(key, "")`. -/
theorem parseEnv_bare_key (env : EnvFn) (pre post : List String) (tok : String)
    (hno : '=' ∉ tok.toList) (hne : TrimSpace tok ≠ "")
    (hpost : ∀ t ∈ post, ∀ v, tokenWrite env t ≠ some (TrimSpace tok, v)) :
    ∃ m, parseEnv env (JSON.arr ((pre ++ tok :: post).map JSON.str)) = Except.ok (some m, none)
      ∧ Entries.get m (TrimSpace tok) = some (env (TrimSpace tok) "") :=
  ⟨_, parseEnv_strs env _,
    get_applyWrites_last env pre post tok _ _ (tokenWrite_bare env tok hno hne) hpost⟩

theorem parseEnv_bare_key_witness :
    ∃ m, parseEnv envSample (JSON.arr ((["A=1"] ++ " B " :: ["C"]).map JSON.str))
          = Except.ok (some m, none)
      ∧ Entries.get m (TrimSpace " B ") = some (envSample (TrimSpace " B ") "") :=
  parseEnv_bare_key envSample ["A=1"] ["C"] " B " (by decide) (by decide) (by
    intro t ht v hw
    have ht' : t = "C" := by simpa using ht
    subst ht'
    have hC : tokenWrite envSample "C" = some ("C", "") := by rfl
    rw [hC] at hw
    have hk : "C" = TrimSpace " B " := congrArg Prod.fst (Option.some.inj hw)
    exact absurd hk (by decide))

/-- C5. Last write wins: in a list of string tokens, for every key `k` that
some token writes, the list splits at the last token writing `k`, and the
value `parseEnv` returns for `k` is the value that token writes (be it a bare
key or a `KEY=VALUE` pair). -/
theorem parseEnv_last_write_wins (env : EnvFn) (toks : List String) (k : String)
    (hk : ∃ t ∈ toks, ∃ v, tokenWrite env t = some (k, v)) :
    ∃ pre tok post v, toks = pre ++ tok :: post
      ∧ tokenWrite env tok = some (k, v)
      ∧ (∀ t ∈ post, ∀ v', tokenWrite env t ≠ some (k, v'))
      ∧ ∃ m, parseEnv env (JSON.arr (toks.map JSON.str)) = Except.ok (some m, none)
          ∧ Entries.get m k = some v := by
  obtain ⟨pre, tok, post, htoks, ⟨v, hv⟩, hpost⟩ :=
    exists_last_of_exists (fun t => ∃ v, tokenWrite env t = some (k, v)) toks hk
  have hpost' : ∀ t ∈ post, ∀ v', tokenWrite env t ≠ some (k, v') :=
    fun t ht v' hw => hpost t ht ⟨v', hw⟩
  refine ⟨pre, tok, post, v, htoks, hv, hpost', _, parseEnv_strs env toks, ?_⟩
  rw [htoks]
  exact get_applyWrites_last env pre post tok k v hv hpost'

theorem parseEnv_last_write_wins_witness :
    ∃ pre tok post v, ["A=1", "A", "A=2", "B"] = pre ++ tok :: post
      ∧ tokenWrite envSample tok = some ("A", v)
      ∧ (∀ t ∈ post, ∀ v', tokenWrite envSample t ≠ some ("A", v'))
      ∧ ∃ m, parseEnv envSample (JSON.arr (["A=1", "A", "A=2", "B"].map JSON.str))
              = Except.ok (some m, none)
          ∧ Entries.get m "A" = some v :=
  parseEnv_last_write_wins envSample ["A=1", "A", "A=2", "B"] "A"
    ⟨"A=1", by simp, "1", by rfl⟩

/-- C6. `parseEnv` on nil returns the nil map and no error; on every value
that is neither nil nor a sequence it returns an error (and the nil map); on
every sequence of strings it returns a map and no error. So on a value that
is nil, not a sequence, or a sequence of strings, `parseEnv` returns an error
if and only if the value is non-nil and not a sequence. -/
theorem parseEnv_error_cases (env : EnvFn) :
    parseEnv env JSON.null = Except.ok (none, none)
    ∧ (∀ raw, raw ≠ JSON.null → (∀ items, raw ≠ JSON.arr items) →
        parseEnv env raw = Except.ok (none, some "failed to parse plugin configuration"))
    ∧ (∀ toks : List String, ∃ m,
        parseEnv env (JSON.arr (toks.map JSON.str)) = Except.ok (some m, none))
    ∧ (∀ raw, (raw = JSON.null ∨ (∀ items, raw ≠ JSON.arr items)
            ∨ ∃ toks : List String, raw = JSON.arr (toks.map JSON.str)) →
        ((∃ m msg, parseEnv env raw = Except.ok (m, some msg))
          ↔ (raw ≠ JSON.null ∧ ∀ items, raw ≠ JSON.arr items))) := by
  have hbad : ∀ raw, raw ≠ JSON.null → (∀ items, raw ≠ JSON.arr items) →
      parseEnv env raw = Except.ok (none, some "failed to parse plugin configuration") := by
    intro raw hnull harr
    cases raw with
    | null => exact absurd rfl hnull
    | arr items => exact absurd rfl (harr items)
    | bool b => rfl
    | num n => rfl
    | str s => rfl
    | obj members => rfl
  refine ⟨rfl, hbad, fun toks => ⟨_, parseEnv_strs env toks⟩, ?_⟩
  intro raw hdom
  constructor
  · rintro ⟨m, msg, h⟩
    by_cases hnull : raw = JSON.null
    · subst hnull
      simp [parseEnv, pure, Except.pure] at h
    · refine ⟨hnull, fun items hitems => ?_⟩
      rcases hdom with h0 | h0 | ⟨toks, h0⟩
      · exact hnull h0
      · exact h0 items hitems
      · rw [h0, parseEnv_strs] at h
        simp at h
  · rintro ⟨hnull, harr⟩
    exact ⟨none, _, hbad raw hnull harr⟩

theorem parseEnv_error_cases_witness :
    parseEnv envSample (JSON.str "A=1")
      = Except.ok (none, some "failed to parse plugin configuration") :=
  (parseEnv_error_cases envSample).2.1 (JSON.str "A=1") (by simp) (by simp)

theorem all_isStr_eq_map (items : List JSON) (h : items.all JSON.isStr = true) :
    ∃ toks : List String, items = toks.map JSON.str := by
  induction items with
  | nil => exact ⟨[], rfl⟩
  | cons v rest ih =>
    rw [List.all_cons, Bool.and_eq_true] at h
    obtain ⟨toks, htoks⟩ := ih h.2
    cases v with
    | str s => exact ⟨s :: toks, by simp [htoks]⟩
    | null => simp [JSON.isStr] at h
    | bool b => simp [JSON.isStr] at h
    | num n => simp [JSON.isStr] at h
    | arr xs => simp [JSON.isStr] at h
    | obj ms => simp [JSON.isStr] at h

theorem parseEnv_of_stringsIfSeq (env : EnvFn) (raw : JSON) (h : stringsIfSeq raw = true) :
    ∃ m e, parseEnv env raw = Except.ok (m, e) := by
  cases raw with
  | arr items =>
    obtain ⟨toks, rfl⟩ := all_isStr_eq_map items h
    exact ⟨_, _, parseEnv_strs env toks⟩
  | null => exact ⟨_, _, rfl⟩
  | bool b => exact ⟨_, _, rfl⟩
  | num n => exact ⟨_, _, rfl⟩
  | str s => exact ⟨_, _, rfl⟩
  | obj ms => exact ⟨_, _, rfl⟩

theorem appendPaths_strs (paths toks : List String) :
    appendPaths paths (toks.map JSON.str) = Except.ok (paths ++ toks) := by
  induction toks generalizing paths with
  | nil => simp [appendPaths, pure, Except.pure]
  | cons t rest ih => simp [appendPaths, ih]

theorem resolvePath_of_stringsIfSeq (w : WatchConfig) (h : stringsIfSeq w.RawPath = true) :
    ∃ paths, resolvePath w = Except.ok { w with Paths := paths } := by
  obtain ⟨rawPath, paths, step⟩ := w
  cases rawPath with
  | arr items =>
    obtain ⟨toks, rfl⟩ := all_isStr_eq_map items h
    exact ⟨paths ++ toks, by
      simp [resolvePath, appendPaths_strs, bind, Except.bind, pure, Except.pure]⟩
  | str s => exact ⟨[s], rfl⟩
  | null => exact ⟨paths, rfl⟩
  | bool b => exact ⟨paths, rfl⟩
  | num n => exact ⟨paths, rfl⟩
  | obj ms => exact ⟨paths, rfl⟩

theorem resolvePath_other (w : WatchConfig) (h : otherPathShape w.RawPath = true) :
    resolvePath w = Except.ok w := by
  obtain ⟨rawPath, paths, step⟩ := w
  cases rawPath with
  | arr items => simp [otherPathShape, JSON.isSeq] at h
  | str s => simp [otherPathShape, JSON.isStr] at h
  | null => simp [otherPathShape, JSON.isNull] at h
  | bool b => rfl
  | num n => rfl
  | obj ms => rfl

theorem setBuild_eq (env : EnvFn) (b : Build) :
    setBuild env b
      = { b with
          Message := if b.Message = "" then env "BUILDKITE_MESSAGE" "" else b.Message,
          Branch := if b.Branch = "" then env "BUILDKITE_BRANCH" "" else b.Branch,
          Commit := if b.Commit = "" then env "BUILDKITE_COMMIT" "" else b.Commit } := by
  by_cases h1 : b.Message = "" <;> by_cases h2 : b.Branch = "" <;> by_cases h3 : b.Commit = "" <;>
    simp [setBuild, h1, h2, h3]

theorem setBuild_RawEnv (env : EnvFn) (b : Build) : (setBuild env b).RawEnv = b.RawEnv := by
  rw [setBuild_eq]

/-- A rule is normalised without a panic when no sequence among its raw
path and raw env fields holds a non-string element. -/
theorem normalizeWatch_of_stringsIfSeq (env : EnvFn) (top : GoMap) (w : WatchConfig)
    (hp : stringsIfSeq w.RawPath = true) (he : stringsIfSeq w.Step.RawEnv = true)
    (hb : stringsIfSeq w.Step.Build.RawEnv = true) :
    ∃ w', normalizeWatch env top w = Except.ok w' := by
  obtain ⟨paths, hpaths⟩ := resolvePath_of_stringsIfSeq w hp
  obtain ⟨own, e1, hown⟩ := parseEnv_of_stringsIfSeq env _ he
  obtain ⟨bown, e2, hbown⟩ := parseEnv_of_stringsIfSeq env _ hb
  unfold normalizeWatch
  simp only [hpaths, bind, Except.bind]
  by_cases ht : w.Step.Trigger = ""
  · exact ⟨_, by
      simp only [ht, ne_eq, not_true_eq_false, if_false]
      exact appendEnv_eq env _ top own bown e1 e2 hown hbown⟩
  · exact ⟨_, by
      simp only [ht, ne_eq, not_false_eq_true, if_true]
      exact appendEnv_eq env _ top own bown e1 e2 hown
        (by rw [setBuild_RawEnv]; exact hbown)⟩

theorem normalizeWatches_forall₂ (env : EnvFn) (top : GoMap) (ws : List WatchConfig)
    (h : ∀ w ∈ ws, ∃ w', normalizeWatch env top w = Except.ok w') :
    ∃ ws', normalizeWatches env top ws = Except.ok ws'
      ∧ List.Forall₂ (fun w w' => normalizeWatch env top w = Except.ok w') ws ws' := by
  induction ws with
  | nil => exact ⟨[], rfl, List.Forall₂.nil⟩
  | cons w rest ih =>
    obtain ⟨w', hw'⟩ := h w (List.mem_cons_self _ _)
    obtain ⟨rest', hrest, hall⟩ := ih (fun x hx => h x (List.mem_cons_of_mem _ hx))
    refine ⟨w' :: rest', ?_, List.Forall₂.cons hw' hall⟩
    simp [normalizeWatches, hw', hrest, bind, Except.bind, pure, Except.pure]

/-- `Plugin.UnmarshalJSON` when the block decodes and the top-level env
parses without an error. -/
theorem UnmarshalJSON_ok (env : EnvFn) (block : JSON) (p : Plugin) (top : GoMap)
    (ws : List WatchConfig)
    (hdec : decodePlainPlugin Plugin.defaults block = Except.ok p)
    (htop : parseEnv env p.RawEnv = Except.ok (top, none))
    (hws : normalizeWatches env top p.Watch = Except.ok ws) :
    Plugin.UnmarshalJSON env block
      = Except.ok ({ p with Env := top, RawEnv := JSON.null, Watch := ws }, none) := by
  simp [Plugin.UnmarshalJSON, hdec, htop, hws, bind, Except.bind, pure, Except.pure]

theorem scanEntries_skip (env : EnvFn) (before rest : List (String × JSON))
    (h : ∀ e ∈ before, matchesPlugin e.1 = false) :
    scanEntries env (before ++ rest) = scanEntries env rest := by
  induction before with
  | nil => rfl
  | cons e es ih =>
    obtain ⟨key, cfg⟩ := e
    have hk : matchesPlugin key = false := h (key, cfg) (List.mem_cons_self _ _)
    simp only [List.cons_append, scanEntries, hk]
    exact ih (fun x hx => h x (List.mem_cons_of_mem _ hx))

theorem scanEntries_none (env : EnvFn) (es : List (String × JSON))
    (h : ∀ e ∈ es, matchesPlugin e.1 = false) :
    scanEntries env es = Except.ok none := by
  have := scanEntries_skip env es [] h
  simpa [scanEntries, pure, Except.pure] using this

theorem scanConfigs_skip (env : EnvFn) (pre rest : List (List (String × JSON)))
    (h : ∀ m ∈ pre, ∀ e ∈ m, matchesPlugin e.1 = false) :
    scanConfigs env (pre ++ rest) = scanConfigs env rest := by
  induction pre with
  | nil => rfl
  | cons m ms ih =>
    have hm := scanEntries_none env m (h m (List.mem_cons_self _ _))
    simp only [List.cons_append, scanConfigs, hm, bind, Except.bind]
    exact ih (fun x hx => h x (List.mem_cons_of_mem _ hx))

/-- What `initializePlugin` returns in terms of the first matching block. -/
theorem initializePlugin_first_match (env : EnvFn) (block : JSON) (key : String)
    (pre rest : List (List (String × JSON))) (before after : List (String × JSON))
    (hpre : ∀ m ∈ pre, ∀ e ∈ m, matchesPlugin e.1 = false)
    (hbefore : ∀ e ∈ before, matchesPlugin e.1 = false)
    (hkey : matchesPlugin key = true) :
    initializePlugin env (some (pre ++ (before ++ (key, block) :: after) :: rest))
      = match Plugin.UnmarshalJSON env block with
        | Except.ok (plugin, none) => Except.ok (plugin, none)
        | Except.ok (_, some _) => Except.ok ({}, some "failed to parse plugin configuration")
        | Except.error e => Except.error e := by
  simp only [initializePlugin]
  rw [scanConfigs_skip env pre _ hpre]
  simp only [scanConfigs, scanEntries_skip env before _ hbefore, scanEntries, hkey, if_true,
    bind, Except.bind]
  rcases Plugin.UnmarshalJSON env block with e | ⟨plugin, _ | msg⟩ <;>
    simp [pure, Except.pure]

/-- When the block decodes, a top-level `env` that is present and not
sequence-shaped makes `Plugin.UnmarshalJSON` return its error, and
`initializePlugin` return that error with the zero-valued `Plugin`. -/
theorem initializePlugin_invalid_env_shape (env : EnvFn) (block : JSON) (p : Plugin)
    (key : String) (pre rest : List (List (String × JSON))) (before after : List (String × JSON))
    (hdec : decodePlainPlugin Plugin.defaults block = Except.ok p)
    (hshape : invalidEnvShape p.RawEnv = true)
    (hpre : ∀ m ∈ pre, ∀ e ∈ m, matchesPlugin e.1 = false)
    (hbefore : ∀ e ∈ before, matchesPlugin e.1 = false)
    (hkey : matchesPlugin key = true) :
    Plugin.UnmarshalJSON env block
        = Except.ok (p, some "failed to parse plugin configuration")
      ∧ initializePlugin env (some (pre ++ (before ++ (key, block) :: after) :: rest))
        = Except.ok ({}, some "failed to parse plugin configuration") := by
  have hparse : parseEnv env p.RawEnv
      = Except.ok (none, some "failed to parse plugin configuration") := by
    cases hr : p.RawEnv with
    | null => simp [hr, invalidEnvShape, JSON.isNull] at hshape
    | arr items => simp [hr, invalidEnvShape, JSON.isSeq, JSON.isNull] at hshape
    | bool b => rfl
    | num n => rfl
    | str s => rfl
    | obj ms => rfl
  have hun : Plugin.UnmarshalJSON env block
      = Except.ok (p, some "failed to parse plugin configuration") := by
    simp [Plugin.UnmarshalJSON, hdec, hparse, bind, Except.bind, pure, Except.pure]
  refine ⟨hun, ?_⟩
  rw [initializePlugin_first_match env block key pre rest before after hpre hbefore hkey, hun]

/-- C7 (failing input). The block has a string for its top-level `env`, yet
neither `Plugin.UnmarshalJSON` nor `initializePlugin` returns an error: decoding
the block reaches `Step.UnmarshalJSON`, whose assertion on the `soft_fail`
element `1` panics before `parseEnv` is called. -/
theorem initializePlugin_panics_before_env_check :
    (∃ rest, blockBadEnvSoftFail = JSON.obj (("env", JSON.str "FOO=1") :: rest)
        ∧ invalidEnvShape (JSON.str "FOO=1") = true)
      ∧ Plugin.UnmarshalJSON envEmpty blockBadEnvSoftFail = Except.error Panic.typeAssertion
      ∧ initializePlugin envEmpty (some [[(sampleKey, blockBadEnvSoftFail)]])
          = Except.error Panic.typeAssertion
      ∧ initializePlugin envEmpty (some [[(sampleKey, blockBadEnv)]])
          = Except.ok ({}, some "failed to parse plugin configuration") :=
  ⟨⟨_, rfl, rfl⟩, rfl, rfl, rfl⟩

theorem appendEnv_bind (env : EnvFn) (w : WatchConfig) (top : GoMap) :
    appendEnv env w top
      = (do
          let own ← (parseEnv env w.Step.RawEnv).map Prod.fst
          let bown ← (parseEnv env w.Step.Build.RawEnv).map Prod.fst
          pure (appendEnvResult w top own bown)) := by
  rcases h1 : parseEnv env w.Step.RawEnv with e | ⟨own, e1⟩
  · simp [appendEnv, h1, bind, Except.bind, Except.map]
  · rcases h2 : parseEnv env w.Step.Build.RawEnv with e | ⟨bown, e2⟩
    · simp [appendEnv, h1, h2, bind, Except.bind, Except.map]
    · rw [appendEnv_eq env w top own bown e1 e2 h1 h2]
      simp [bind, Except.bind, Except.map, pure, Except.pure]

theorem parseEnv_dropInvalidEnv (env : EnvFn) (raw : JSON) :
    (parseEnv env (dropInvalidEnv raw)).map Prod.fst = (parseEnv env raw).map Prod.fst := by
  cases raw <;> rfl

theorem appendEnv_dropInvalidEnvs (env : EnvFn) (w : WatchConfig) (top : GoMap) :
    appendEnv env w.dropInvalidEnvs top = appendEnv env w top := by
  rw [appendEnv_bind, appendEnv_bind]
  simp only [WatchConfig.dropInvalidEnvs, parseEnv_dropInvalidEnv]
  rfl

theorem resolvePath_dropInvalidEnvs (w : WatchConfig) :
    resolvePath w.dropInvalidEnvs = (resolvePath w).map WatchConfig.dropInvalidEnvs := by
  obtain ⟨rawPath, paths, step⟩ := w
  cases rawPath with
  | arr items =>
    simp only [resolvePath, WatchConfig.dropInvalidEnvs, bind, Except.bind]
    rcases appendPaths paths items with e | ps <;> rfl
  | str s => rfl
  | null => rfl
  | bool b => rfl
  | num n => rfl
  | obj ms => rfl

/-- A raw env of invalid shape at step or build level is read as absent. -/
theorem normalizeWatch_dropInvalidEnvs (env : EnvFn) (top : GoMap) (w : WatchConfig) :
    normalizeWatch env top w.dropInvalidEnvs = normalizeWatch env top w := by
  unfold normalizeWatch
  rw [resolvePath_dropInvalidEnvs]
  rcases resolvePath w with e | w1
  · rfl
  · simp only [Except.map, bind, Except.bind]
    by_cases ht : w1.Step.Trigger = ""
    · have ht' : w1.dropInvalidEnvs.Step.Trigger = "" := ht
      simp only [ht, ht', ne_eq, not_true_eq_false, if_false]
      exact appendEnv_dropInvalidEnvs env w1 top
    · have ht' : ¬ w1.dropInvalidEnvs.Step.Trigger = "" := ht
      simp only [ht, ht', ne_eq, not_false_eq_true, if_true]
      have hcomm : ({ w1.dropInvalidEnvs with
            Step := { w1.dropInvalidEnvs.Step with
              Build := setBuild env w1.dropInvalidEnvs.Step.Build } } : WatchConfig)
          = WatchConfig.dropInvalidEnvs
              { w1 with Step := { w1.Step with Build := setBuild env w1.Step.Build } } := by
        simp only [setBuild_eq, WatchConfig.dropInvalidEnvs]
      rw [hcomm]
      exact appendEnv_dropInvalidEnvs env _ top

theorem appendEnv_Paths (env : EnvFn) (w w' : WatchConfig) (top : GoMap)
    (h : appendEnv env w top = Except.ok w') : w'.Paths = w.Paths := by
  rw [appendEnv_bind] at h
  rcases h1 : parseEnv env w.Step.RawEnv with e | ⟨own, e1⟩
  · simp [h1, bind, Except.bind, Except.map] at h
  · rcases h2 : parseEnv env w.Step.Build.RawEnv with e | ⟨bown, e2⟩
    · simp [h1, h2, bind, Except.bind, Except.map] at h
    · simp only [h1, h2, bind, Except.bind, Except.map, pure, Except.pure] at h
      cases h
      rfl

theorem normalizeWatch_Paths (env : EnvFn) (top : GoMap) (w w1 w2 : WatchConfig)
    (h1 : resolvePath w = Except.ok w1) (h2 : normalizeWatch env top w = Except.ok w2) :
    w2.Paths = w1.Paths := by
  unfold normalizeWatch at h2
  simp only [h1, bind, Except.bind] at h2
  rw [appendEnv_Paths env _ w2 top h2]
  split_ifs <;> rfl

/-- Construction succeeds when the block decodes, the top-level env parses
without error, and no sequence among the rules' raw paths and raw env fields
holds a non-string element. -/
theorem UnmarshalJSON_of_stringsIfSeq (env : EnvFn) (block : JSON) (p : Plugin) (top : GoMap)
    (hdec : decodePlainPlugin Plugin.defaults block = Except.ok p)
    (htop : parseEnv env p.RawEnv = Except.ok (top, none))
    (hwf : ∀ w ∈ p.Watch, stringsIfSeq w.RawPath = true ∧ stringsIfSeq w.Step.RawEnv = true
        ∧ stringsIfSeq w.Step.Build.RawEnv = true) :
    ∃ ws, Plugin.UnmarshalJSON env block
          = Except.ok ({ p with Env := top, RawEnv := JSON.null, Watch := ws }, none)
      ∧ List.Forall₂ (fun w w' => normalizeWatch env top w = Except.ok w') p.Watch ws := by
  obtain ⟨ws, hws, hall⟩ := normalizeWatches_forall₂ env top p.Watch
    (fun w hw => normalizeWatch_of_stringsIfSeq env top w (hwf w hw).1 (hwf w hw).2.1 (hwf w hw).2.2)
  exact ⟨ws, UnmarshalJSON_ok env block p top ws hdec htop hws, hall⟩

/-- A block that selects `watch` twice is not covered by `sliceKeysOnce`. -/
theorem sliceKeysOnce_blockRepeatedWatch : sliceKeysOnce blockRepeatedWatch = false := by
  decide

/-- C8 (counterexample). The first rule of the block has a string for its
step-level `env` and the second a number for its build-level `env`, yet
`Plugin.UnmarshalJSON` returns no error: both fields are read as absent and
the rules receive the top-level env only. -/
theorem UnmarshalJSON_nested_env_counterexample :
    ∃ w1 w2 q r1 r2,
      decodePlainPlugin Plugin.defaults blockNestedBadEnv = Except.ok decodedNestedBadEnv
      ∧ decodedNestedBadEnv.Watch = [w1, w2]
      ∧ invalidEnvShape w1.Step.RawEnv = true
      ∧ invalidEnvShape w2.Step.Build.RawEnv = true
      ∧ Plugin.UnmarshalJSON envEmpty blockNestedBadEnv = Except.ok (q, none)
      ∧ q.Watch = [r1, r2]
      ∧ r1.Step.Env = some [("FOO", "1")]
      ∧ r2.Step.Build.Env = some [("FOO", "1")] :=
  ⟨_, _, _, _, _, rfl, rfl, rfl, rfl, rfl, rfl, rfl, rfl⟩

/-- C8 (amended). An `env` field of invalid shape at step or build level is
not fatal: when no slice field is selected twice in the block, the block
decodes, its top-level env parses without error and no sequence among the
rules' raw paths and raw env fields holds a non-string element,
`Plugin.UnmarshalJSON` returns no error, and every rule is normalised as if
its step-level and build-level env of invalid shape were absent. -/
theorem UnmarshalJSON_nested_env_shape_not_fatal (env : EnvFn) (block : JSON) (p : Plugin)
    (top : GoMap)
    (_hkeys : sliceKeysOnce block = true)
    (hdec : decodePlainPlugin Plugin.defaults block = Except.ok p)
    (htop : parseEnv env p.RawEnv = Except.ok (top, none))
    (_hinv : ∃ w ∈ p.Watch,
      invalidEnvShape w.Step.RawEnv = true ∨ invalidEnvShape w.Step.Build.RawEnv = true)
    (hwf : ∀ w ∈ p.Watch, stringsIfSeq w.RawPath = true ∧ stringsIfSeq w.Step.RawEnv = true
        ∧ stringsIfSeq w.Step.Build.RawEnv = true) :
    ∃ ws, Plugin.UnmarshalJSON env block
          = Except.ok ({ p with Env := top, RawEnv := JSON.null, Watch := ws }, none)
      ∧ List.Forall₂ (fun w w' => normalizeWatch env top w.dropInvalidEnvs = Except.ok w')
          p.Watch ws := by
  obtain ⟨ws, hun, hall⟩ := UnmarshalJSON_of_stringsIfSeq env block p top hdec htop hwf
  refine ⟨ws, hun, hall.imp ?_⟩
  intro w w' h
  rw [normalizeWatch_dropInvalidEnvs]
  exact h

theorem UnmarshalJSON_nested_env_shape_not_fatal_witness :
    ∃ ws, Plugin.UnmarshalJSON envEmpty blockNestedBadEnv
          = Except.ok ({ decodedNestedBadEnv with
              Env := some [("FOO", "1")], RawEnv := JSON.null, Watch := ws }, none)
      ∧ List.Forall₂
          (fun w w' => normalizeWatch envEmpty (some [("FOO", "1")]) w.dropInvalidEnvs = Except.ok w')
          decodedNestedBadEnv.Watch ws :=
  UnmarshalJSON_nested_env_shape_not_fatal envEmpty blockNestedBadEnv decodedNestedBadEnv
    (some [("FOO", "1")]) (by decide) rfl rfl
    ⟨_, List.mem_cons_self _ _, Or.inl rfl⟩
    (by decide)

/-- C9. In the type switch on the raw path of a rule whose `Paths` is empty:
a string `s` gives `Paths = [s]`, a sequence of strings gives that sequence in
the same order, an absent path leaves `Paths` empty; the rest of the loop body
(`setBuild`, `appendEnv`) leaves `Paths` as the switch set it. -/
theorem resolvePath_shapes (env : EnvFn) (top : GoMap) (w : WatchConfig) (hempty : w.Paths = []) :
    (∀ s, w.RawPath = JSON.str s → resolvePath w = Except.ok { w with Paths := [s] })
    ∧ (∀ ss : List String, w.RawPath = JSON.arr (ss.map JSON.str) →
        resolvePath w = Except.ok { w with Paths := ss })
    ∧ (w.RawPath = JSON.null → resolvePath w = Except.ok { w with Paths := [] })
    ∧ (∀ w1 w2, resolvePath w = Except.ok w1 → normalizeWatch env top w = Except.ok w2 →
        w2.Paths = w1.Paths) := by
  obtain ⟨rawPath, paths, step⟩ := w
  simp only at hempty
  subst hempty
  refine ⟨?_, ?_, ?_, fun w1 w2 h1 h2 => normalizeWatch_Paths env top _ w1 w2 h1 h2⟩
  · intro s hs
    simp only at hs
    subst hs
    rfl
  · intro ss hs
    simp only at hs
    subst hs
    simp [resolvePath, appendPaths_strs, bind, Except.bind, pure, Except.pure]
  · intro hs
    simp only at hs
    subst hs
    rfl

theorem resolvePath_shapes_witness :
    resolvePath sampleSeqPathRule = Except.ok { sampleSeqPathRule with Paths := ["a", "b"] } :=
  (resolvePath_shapes envEmpty none sampleSeqPathRule rfl).2.1 ["a", "b"] rfl

/-- C10 (counterexample). The rules of the block have a number, a boolean and
an object for `path`, yet `Plugin.UnmarshalJSON` returns no error: it produces
the three rules, each with empty `Paths`. -/
theorem UnmarshalJSON_other_path_counterexample :
    decodePlainPlugin Plugin.defaults blockOtherPath = Except.ok decodedOtherPath
      ∧ (∀ w ∈ decodedOtherPath.Watch, otherPathShape w.RawPath = true)
      ∧ ∃ q, Plugin.UnmarshalJSON envEmpty blockOtherPath = Except.ok (q, none)
          ∧ q.Watch.map (fun w => w.Paths) = [[], [], []] :=
  ⟨rfl, by decide, _, rfl, rfl⟩

/-- C10 (amended). A raw `path` that is present and neither a string nor a
sequence (a number, a boolean, an object) raises no error: when no slice field
is selected twice in the block, the block decodes, its top-level env parses
without error and no sequence among the rules' raw paths and raw env fields
holds a non-string element, `Plugin.UnmarshalJSON` returns no error and
produces every rule, a rule with such a path keeping the `Paths` it was
decoded with. -/
theorem UnmarshalJSON_other_path_shape_not_fatal (env : EnvFn) (block : JSON) (p : Plugin)
    (top : GoMap)
    (_hkeys : sliceKeysOnce block = true)
    (hdec : decodePlainPlugin Plugin.defaults block = Except.ok p)
    (htop : parseEnv env p.RawEnv = Except.ok (top, none))
    (_hother : ∃ w ∈ p.Watch, otherPathShape w.RawPath = true)
    (hwf : ∀ w ∈ p.Watch, stringsIfSeq w.RawPath = true ∧ stringsIfSeq w.Step.RawEnv = true
        ∧ stringsIfSeq w.Step.Build.RawEnv = true) :
    ∃ ws, Plugin.UnmarshalJSON env block
          = Except.ok ({ p with Env := top, RawEnv := JSON.null, Watch := ws }, none)
      ∧ List.Forall₂ (fun w w' => otherPathShape w.RawPath = true → w'.Paths = w.Paths)
          p.Watch ws := by
  obtain ⟨ws, hun, hall⟩ := UnmarshalJSON_of_stringsIfSeq env block p top hdec htop hwf
  refine ⟨ws, hun, hall.imp ?_⟩
  intro w w' h hother
  exact normalizeWatch_Paths env top w w w' (resolvePath_other w hother) h

theorem UnmarshalJSON_other_path_shape_not_fatal_witness :
    ∃ ws, Plugin.UnmarshalJSON envEmpty blockOtherPath
          = Except.ok ({ decodedOtherPath with Env := none, RawEnv := JSON.null, Watch := ws }, none)
      ∧ List.Forall₂ (fun w w' => otherPathShape w.RawPath = true → w'.Paths = w.Paths)
          decodedOtherPath.Watch ws :=
  UnmarshalJSON_other_path_shape_not_fatal envEmpty blockOtherPath decodedOtherPath none
    (by decide) rfl rfl
    ⟨_, List.mem_cons_self _ _, rfl⟩
    (by decide)


theorem softFailRecords_objs (recs : List (List (String × JSON))) :
    softFailRecords (recs.map JSON.obj)
      = Except.ok (recs.map (fun members => { ExitStatus := memberValue members "exit_status" })) := by
  induction recs with
  | nil => rfl
  | cons r rest ih =>
    simp [softFailRecords, ih, bind, Except.bind, pure, Except.pure]

theorem memberValue_absent (members : List (String × JSON)) (k : String)
    (h : ∀ kv ∈ members, kv.1 ≠ k) : memberValue members k = JSON.null := by
  have hfind : members.reverse.find? (fun kv => kv.1 == k) = none := by
    rw [List.find?_eq_none]
    intro kv hkv
    have := h kv (List.mem_reverse.mp hkv)
    simpa using this
  simp [memberValue, hfind]

theorem memberValue_present (pre post : List (String × JSON)) (k : String) (v : JSON)
    (h : ∀ kv ∈ post, kv.1 ≠ k) : memberValue (pre ++ (k, v) :: post) k = v := by
  have hpost : post.reverse.find? (fun kv => kv.1 == k) = none := by
    rw [List.find?_eq_none]
    intro kv hkv
    have := h kv (List.mem_reverse.mp hkv)
    simpa using this
  have hrev : (pre ++ (k, v) :: post).reverse = post.reverse ++ (k, v) :: pre.reverse := by
    simp
  simp [memberValue, hrev, List.find?_append, hpost]

/-- C11. `Step.UnmarshalJSON` on a step whose decoded `soft_fail` is a boolean
`b` leaves that boolean in `SoftFail`; on a step whose decoded `soft_fail` is
a sequence of records it leaves a list of the same length and order whose
i-th element carries the value the i-th record holds for `exit_status`: the
value of the record's (last) member with that key, and nil when the record has
no such member. No error is returned. -/
theorem UnmarshalJSON_soft_fail (data : JSON) :
    (∀ b, rawSoftFail data = SoftFailValue.raw (JSON.bool b) →
        Step.UnmarshalJSON data
          = Except.ok ({ decodePlainStep {} data with
              SoftFail := SoftFailValue.raw (JSON.bool b) }, none))
    ∧ (∀ recs : List (List (String × JSON)),
        rawSoftFail data = SoftFailValue.raw (JSON.arr (recs.map JSON.obj)) →
        Step.UnmarshalJSON data
          = Except.ok ({ decodePlainStep {} data with
              SoftFail := SoftFailValue.list
                (recs.map (fun members => { ExitStatus := memberValue members "exit_status" })) },
              none))
    ∧ (∀ members : List (String × JSON), (∀ kv ∈ members, kv.1 ≠ "exit_status") →
        memberValue members "exit_status" = JSON.null)
    ∧ (∀ (pre post : List (String × JSON)) (v : JSON),
        (∀ kv ∈ post, kv.1 ≠ "exit_status") →
        memberValue (pre ++ ("exit_status", v) :: post) "exit_status" = v) := by
  refine ⟨?_, ?_, fun members h => memberValue_absent members _ h,
    fun pre post v h => memberValue_present pre post _ v h⟩
  · intro b hb
    unfold rawSoftFail at hb
    unfold Step.UnmarshalJSON
    generalize decodePlainStep {} data = s at hb ⊢
    obtain ⟨g, t, l, bd, c, a, ar, re, e, asy, sf⟩ := s
    simp only at hb
    subst hb
    rfl
  · intro recs hrecs
    unfold rawSoftFail at hrecs
    unfold Step.UnmarshalJSON
    generalize decodePlainStep {} data = s at hrecs ⊢
    obtain ⟨g, t, l, bd, c, a, ar, re, e, asy, sf⟩ := s
    simp only at hrecs
    subst hrecs
    simp only [softFailRecords_objs, bind, Except.bind, pure, Except.pure]

theorem UnmarshalJSON_soft_fail_witness :
    Step.UnmarshalJSON stepSoftFailRecords = Except.ok (resolvedSoftFailRecords, none)
      ∧ Step.UnmarshalJSON stepSoftFailTrue
          = Except.ok ({ Command := "test.sh", SoftFail := SoftFailValue.raw (JSON.bool true) },
              none) :=
  ⟨(UnmarshalJSON_soft_fail stepSoftFailRecords).2.1 [[("exit_status", JSON.num 2)], []] rfl,
   (UnmarshalJSON_soft_fail stepSoftFailTrue).1 true rfl⟩

/-- C12 (counterexample). A `soft_fail` that is a string is neither a boolean
nor a sequence, yet `Step.UnmarshalJSON` leaves the string in `SoftFail`: the
resolved value is not nil. -/
theorem UnmarshalJSON_soft_fail_string_counterexample :
    rawSoftFail stepSoftFailString = SoftFailValue.raw (JSON.str "always")
      ∧ ∃ s, Step.UnmarshalJSON stepSoftFailString = Except.ok (s, none)
          ∧ s.SoftFail = SoftFailValue.raw (JSON.str "always") :=
  ⟨rfl, _, rfl, rfl⟩

/-- C12 (amended). On a step whose decoded `soft_fail` is neither a boolean
nor a sequence, `Step.UnmarshalJSON` returns no error and leaves `SoftFail` as
decoded: nil when `soft_fail` is absent or null, and the raw string, number or
object otherwise. -/
theorem UnmarshalJSON_soft_fail_other (data : JSON) (v : JSON)
    (hraw : rawSoftFail data = SoftFailValue.raw v)
    (hbool : v.isBool = false) (hseq : v.isSeq = false) :
    Step.UnmarshalJSON data = Except.ok (decodePlainStep {} data, none)
      ∧ (decodePlainStep {} data).SoftFail = SoftFailValue.raw v := by
  unfold rawSoftFail at hraw
  refine ⟨?_, hraw⟩
  unfold Step.UnmarshalJSON
  generalize decodePlainStep {} data = s at hraw ⊢
  obtain ⟨g, t, l, bd, c, a, ar, re, e, asy, sf⟩ := s
  simp only at hraw
  subst hraw
  cases v with
  | bool b => simp [JSON.isBool] at hbool
  | arr items => simp [JSON.isSeq] at hseq
  | null => rfl
  | num n => rfl
  | str s => rfl
  | obj ms => rfl

theorem UnmarshalJSON_soft_fail_other_witness :
    Step.UnmarshalJSON (JSON.obj [("command", JSON.str "test.sh")])
        = Except.ok (decodePlainStep {} (JSON.obj [("command", JSON.str "test.sh")]), none)
      ∧ (decodePlainStep {} (JSON.obj [("command", JSON.str "test.sh")])).SoftFail
        = SoftFailValue.raw JSON.null :=
  UnmarshalJSON_soft_fail_other (JSON.obj [("command", JSON.str "test.sh")]) JSON.null rfl rfl rfl

/-- C14. `Step.MarshalYAML` returns no error, and returns the group wrapper
exactly when `Group` is non-empty: with an empty `Group` the result is the
step itself; otherwise it is the group labelled `Group` holding one step, the
step with `Group` emptied, and marshalling that embedded step gives the flat
step. -/
theorem MarshalYAML_group (s : Step) :
    (Step.MarshalYAML s).2 = none
    ∧ ((Step.MarshalYAML s).1.isGroup = true ↔ s.Group ≠ "")
    ∧ (s.Group = "" → (Step.MarshalYAML s).1 = YAMLValue.step s)
    ∧ (s.Group ≠ "" →
        (Step.MarshalYAML s).1
            = YAMLValue.group { Label := s.Group, Steps := [{ s with Group := "" }] }
          ∧ Step.MarshalYAML { s with Group := "" }
            = (YAMLValue.step { s with Group := "" }, none)) := by
  by_cases h : s.Group = ""
  · simp [Step.MarshalYAML, h, YAMLValue.isGroup]
  · simp [Step.MarshalYAML, h, YAMLValue.isGroup]

theorem MarshalYAML_group_witness :
    (Step.MarshalYAML sampleGroupedStep).1
        = YAMLValue.group { Label := "build", Steps := [{ sampleGroupedStep with Group := "" }] }
      ∧ Step.MarshalYAML { sampleGroupedStep with Group := "" }
        = (YAMLValue.step { sampleGroupedStep with Group := "" }, none) :=
  (MarshalYAML_group sampleGroupedStep).2.2.2 (by decide)

/-- C17. For a rule whose command and trigger are both empty `appendEnv`
completes and merges nothing: the step's `Env` is `parseEnv(step.RawEnv)` and
its `Build.Env` is `parseEnv(Build.RawEnv)`, whatever the top-level env. -/
theorem appendEnv_neither_rule (env : EnvFn) (top : GoMap) (watch : WatchConfig)
    (own bown : GoMap) (e1 e2 : GoError)
    (hcmd : watch.Step.Command = "") (htrig : watch.Step.Trigger = "")
    (hown : parseEnv env watch.Step.RawEnv = Except.ok (own, e1))
    (hbown : parseEnv env watch.Step.Build.RawEnv = Except.ok (bown, e2)) :
    ∃ w, appendEnv env watch top = Except.ok w
      ∧ w.Step.Env = own ∧ w.Step.Build.Env = bown := by
  refine ⟨_, appendEnv_eq env watch top own bown e1 e2 hown hbown, ?_, ?_⟩
  · simp [appendEnvResult, hcmd]
  · simp [appendEnvResult, htrig]

theorem appendEnv_neither_rule_witness :
    ∃ w, appendEnv envEmpty sampleNeitherRule sampleTop = Except.ok w
      ∧ w.Step.Env = some [("X", "rule")] ∧ w.Step.Build.Env = some [("B", "b")] :=
  appendEnv_neither_rule envEmpty sampleTop sampleNeitherRule
    (some [("X", "rule")]) (some [("B", "b")]) none none (by decide) (by decide) rfl rfl

theorem normalizeWatch_eq_bind (env : EnvFn) (top : GoMap) (w : WatchConfig) :
    normalizeWatch env top w
      = (resolvePath w >>= fun w1 => appendEnv env (buildFallback env w1) top) := rfl

theorem resolvePath_Step (w w1 : WatchConfig) (h : resolvePath w = Except.ok w1) :
    w1.Step = w.Step := by
  obtain ⟨rawPath, paths, step⟩ := w
  cases rawPath with
  | arr items =>
    simp only [resolvePath, bind, Except.bind] at h
    rcases hp : appendPaths paths items with e | ps
    · simp [hp] at h
    · simp only [hp, pure, Except.pure] at h
      cases h
      rfl
  | str s => cases h; rfl
  | null => cases h; rfl
  | bool b => cases h; rfl
  | num n => cases h; rfl
  | obj ms => cases h; rfl

/-- Inversion of `appendEnv`: a result comes from two completed parses. -/
theorem appendEnv_ok_inv (env : EnvFn) (w w' : WatchConfig) (top : GoMap)
    (h : appendEnv env w top = Except.ok w') :
    ∃ own bown e1 e2, parseEnv env w.Step.RawEnv = Except.ok (own, e1)
      ∧ parseEnv env w.Step.Build.RawEnv = Except.ok (bown, e2)
      ∧ w' = appendEnvResult w top own bown := by
  rcases h1 : parseEnv env w.Step.RawEnv with e | ⟨own, e1⟩
  · simp [appendEnv, h1, bind, Except.bind] at h
  · rcases h2 : parseEnv env w.Step.Build.RawEnv with e | ⟨bown, e2⟩
    · simp [appendEnv, h1, h2, bind, Except.bind] at h
    · rw [appendEnv_eq env w top own bown e1 e2 h1 h2] at h
      cases h
      exact ⟨own, bown, e1, e2, rfl, rfl, rfl⟩

/-- Inversion of the loop body: a normalised rule comes from a resolved path
followed by `appendEnv` on the rule after the guarded `setBuild`. -/
theorem normalizeWatch_ok_inv (env : EnvFn) (top : GoMap) (w w' : WatchConfig)
    (h : normalizeWatch env top w = Except.ok w') :
    ∃ w1, resolvePath w = Except.ok w1
      ∧ appendEnv env (buildFallback env w1) top = Except.ok w' := by
  rw [normalizeWatch_eq_bind] at h
  rcases h1 : resolvePath w with e | w1
  · simp [h1, bind, Except.bind] at h
  · refine ⟨w1, rfl, ?_⟩
    simpa [h1, bind, Except.bind] using h

theorem buildFallback_Build (env : EnvFn) (w : WatchConfig) :
    (buildFallback env w).Step.Build
      = if w.Step.Trigger ≠ "" then setBuild env w.Step.Build else w.Step.Build := by
  unfold buildFallback
  split_ifs <;> rfl

theorem buildFallback_Command (env : EnvFn) (w : WatchConfig) :
    (buildFallback env w).Step.Command = w.Step.Command := by
  unfold buildFallback
  split_ifs <;> rfl

theorem buildFallback_Trigger (env : EnvFn) (w : WatchConfig) :
    (buildFallback env w).Step.Trigger = w.Step.Trigger := by
  unfold buildFallback
  split_ifs <;> rfl

theorem buildFallback_RawEnv (env : EnvFn) (w : WatchConfig) :
    (buildFallback env w).Step.RawEnv = w.Step.RawEnv := by
  unfold buildFallback
  split_ifs <;> rfl

theorem buildFallback_Build_RawEnv (env : EnvFn) (w : WatchConfig) :
    (buildFallback env w).Step.Build.RawEnv = w.Step.Build.RawEnv := by
  rw [buildFallback_Build]
  split_ifs
  · exact setBuild_RawEnv env _
  · rfl

/-- The three build fields of a normalised rule. -/
theorem normalizeWatch_Build_fields (env : EnvFn) (top : GoMap) (w w' : WatchConfig)
    (h : normalizeWatch env top w = Except.ok w') :
    w'.Step.Build.Message
        = (if w.Step.Trigger ≠ "" ∧ w.Step.Build.Message = "" then env "BUILDKITE_MESSAGE" ""
           else w.Step.Build.Message)
      ∧ w'.Step.Build.Branch
        = (if w.Step.Trigger ≠ "" ∧ w.Step.Build.Branch = "" then env "BUILDKITE_BRANCH" ""
           else w.Step.Build.Branch)
      ∧ w'.Step.Build.Commit
        = (if w.Step.Trigger ≠ "" ∧ w.Step.Build.Commit = "" then env "BUILDKITE_COMMIT" ""
           else w.Step.Build.Commit) := by
  obtain ⟨w1, h1, h2⟩ := normalizeWatch_ok_inv env top w w' h
  obtain ⟨own, bown, e1, e2, _, _, hw'⟩ := appendEnv_ok_inv env _ w' top h2
  have hstep := resolvePath_Step w w1 h1
  subst hw'
  simp only [appendEnvResult, buildFallback_Build, hstep]
  by_cases ht : w.Step.Trigger = ""
  · simp [ht]
  · simp only [ht, ne_eq, not_false_eq_true, if_true, true_and, setBuild_eq]

/-- C13. Build-field fallback in the loop of `Plugin.UnmarshalJSON`: whenever
a rule is normalised, each of `Build.Message`, `Build.Branch`, `Build.Commit`
is `env(VAR, "")` (with `BUILDKITE_MESSAGE`, `BUILDKITE_BRANCH`,
`BUILDKITE_COMMIT`) if the rule's trigger is non-empty and its own field is
empty, and the rule's own field otherwise; and the rule is normalised whenever
no sequence among its raw path and raw env fields holds a non-string
element. -/
theorem normalizeWatch_build_fallback (env : EnvFn) (top : GoMap) (w : WatchConfig) :
    (∀ w', normalizeWatch env top w = Except.ok w' →
        w'.Step.Build.Message
            = (if w.Step.Trigger ≠ "" ∧ w.Step.Build.Message = "" then env "BUILDKITE_MESSAGE" ""
               else w.Step.Build.Message)
          ∧ w'.Step.Build.Branch
            = (if w.Step.Trigger ≠ "" ∧ w.Step.Build.Branch = "" then env "BUILDKITE_BRANCH" ""
               else w.Step.Build.Branch)
          ∧ w'.Step.Build.Commit
            = (if w.Step.Trigger ≠ "" ∧ w.Step.Build.Commit = "" then env "BUILDKITE_COMMIT" ""
               else w.Step.Build.Commit))
    ∧ (stringsIfSeq w.RawPath = true → stringsIfSeq w.Step.RawEnv = true →
        stringsIfSeq w.Step.Build.RawEnv = true →
        ∃ w', normalizeWatch env top w = Except.ok w') :=
  ⟨fun w' h => normalizeWatch_Build_fields env top w w' h,
   fun hp he hb => normalizeWatch_of_stringsIfSeq env top w hp he hb⟩

theorem normalizeWatch_build_fallback_witness :
    ∃ w', normalizeWatch envBuildkite none sampleTriggerBranchRule = Except.ok w'
      ∧ w'.Step.Build.Message = "msg" ∧ w'.Step.Build.Branch = "dev"
      ∧ w'.Step.Build.Commit = "abc123" := by
  obtain ⟨w', hw'⟩ :=
    (normalizeWatch_build_fallback envBuildkite none sampleTriggerBranchRule).2 rfl rfl rfl
  obtain ⟨hm, hb, hc⟩ :=
    (normalizeWatch_build_fallback envBuildkite none sampleTriggerBranchRule).1 w' hw'
  exact ⟨w', hw', by rw [hm]; decide, by rw [hb]; decide, by rw [hc]; decide⟩

theorem scanConfigs_none (env : EnvFn) (doc : List (List (String × JSON)))
    (h : ∀ m ∈ doc, ∀ e ∈ m, matchesPlugin e.1 = false) :
    scanConfigs env doc = Except.ok ({}, some "could not initialize plugin") := by
  have := scanConfigs_skip env doc [] h
  simpa [scanConfigs, pure, Except.pure] using this

theorem scanEntries_unique (env : EnvFn) (key : String) (block : JSON)
    (l : List (String × JSON)) (hmem : (key, block) ∈ l) (hkey : matchesPlugin key = true)
    (huniq : ∀ e ∈ l, matchesPlugin e.1 = true → e = (key, block)) :
    scanEntries env l = scanEntries env [(key, block)] := by
  induction l with
  | nil => cases hmem
  | cons e rest ih =>
    by_cases he : matchesPlugin e.1 = true
    · have heq : e = (key, block) := huniq e (List.mem_cons_self _ _) he
      subst heq
      simp only [scanEntries, hkey, if_true]
    · have he' : matchesPlugin e.1 = false := by simpa using he
      have hrest : (key, block) ∈ rest := by
        rcases List.mem_cons.mp hmem with h | h
        · rw [← h] at he'
          simp [hkey] at he'
        · exact h
      obtain ⟨k0, b0⟩ := e
      simp only [scanEntries, he']
      simpa [scanEntries, hkey] using
        ih hrest (fun x hx => huniq x (List.mem_cons_of_mem _ hx))


/-- C16 (counterexample). The second map of `sampleDocument` holds two keys of
this plugin. Visited in document order the first of them wins and its plugin
is returned; visited in the reverse order, which `range` may equally choose,
the block of the other key is taken and its construction panics. -/
theorem initializePlugin_map_order_counterexample :
    List.Forall₂ List.Perm (sampleDocument.map List.reverse) sampleDocument
      ∧ initializePlugin envEmpty (some sampleDocument) = Except.ok (normalizedEndToEnd, none)
      ∧ initializePlugin envEmpty (some (sampleDocument.map List.reverse))
          = Except.error Panic.typeAssertion := by
  refine ⟨?_, rfl, rfl⟩
  unfold sampleDocument
  exact List.Forall₂.cons (List.reverse_perm _)
    (List.Forall₂.cons (List.reverse_perm _)
      (List.Forall₂.cons (List.reverse_perm _) List.Forall₂.nil))

/-- C16 (amended). First wins across the maps of the document: when no key of
the earlier maps starts with the plugin name and a map holds exactly one entry
whose key does, `initializePlugin` returns, for every order in which the
entries of that map are visited, what `Plugin.UnmarshalJSON` makes of that
entry's block (the plugin built from it, or the parse error with the
zero-valued `Plugin`), whatever the later maps hold; and when no key of any
map starts with the plugin name it returns the error
`could not initialize plugin`. -/
theorem initializePlugin_first_map_wins (env : EnvFn) :
    (∀ (block : JSON) (key : String) (pre rest : List (List (String × JSON)))
        (m visit : List (String × JSON)),
        (∀ p ∈ pre, ∀ e ∈ p, matchesPlugin e.1 = false) →
        List.Perm visit m →
        (key, block) ∈ m →
        matchesPlugin key = true →
        (∀ e ∈ m, matchesPlugin e.1 = true → e = (key, block)) →
        initializePlugin env (some (pre ++ visit :: rest))
          = match Plugin.UnmarshalJSON env block with
            | Except.ok (plugin, none) => Except.ok (plugin, none)
            | Except.ok (_, some _) => Except.ok ({}, some "failed to parse plugin configuration")
            | Except.error e => Except.error e)
    ∧ (∀ doc : List (List (String × JSON)),
        (∀ m ∈ doc, ∀ e ∈ m, matchesPlugin e.1 = false) →
        initializePlugin env (some doc) = Except.ok ({}, some "could not initialize plugin")) := by
  refine ⟨?_, fun doc h => scanConfigs_none env doc h⟩
  intro block key pre rest m visit hpre hperm hmem hkey huniq
  have hscan : scanEntries env visit = scanEntries env [(key, block)] :=
    scanEntries_unique env key block visit (hperm.mem_iff.mpr hmem) hkey
      (fun e he hm => huniq e (hperm.mem_iff.mp he) hm)
  have hsame : initializePlugin env (some (pre ++ visit :: rest))
      = initializePlugin env (some (pre ++ ([] ++ (key, block) :: []) :: rest)) := by
    simp only [initializePlugin]
    rw [scanConfigs_skip env pre _ hpre, scanConfigs_skip env pre _ hpre]
    simp only [scanConfigs, hscan, List.nil_append]
  rw [hsame]
  exact initializePlugin_first_match env block key pre rest [] []
    hpre (fun e he => by cases he) hkey

theorem initializePlugin_first_map_wins_witness :
    initializePlugin envEmpty (some (sampleDocumentOneKey.map List.reverse))
      = match Plugin.UnmarshalJSON envEmpty blockEndToEnd with
        | Except.ok (plugin, none) => Except.ok (plugin, none)
        | Except.ok (_, some _) => Except.ok ({}, some "failed to parse plugin configuration")
        | Except.error e => Except.error e :=
  (initializePlugin_first_map_wins envEmpty).1 blockEndToEnd sampleKey
    [[("github.com/other/plugin#v1.0.0", JSON.obj [("env", JSON.num 1)])]]
    [[(sampleKey, blockBadEnvSoftFail)]]
    [("docker#v3.0.0", JSON.null), (sampleKey, blockEndToEnd)]
    [(sampleKey, blockEndToEnd), ("docker#v3.0.0", JSON.null)]
    (by decide) (List.Perm.swap _ _ _) (List.mem_cons_of_mem _ (List.mem_cons_self _ _))
    (by decide)
    (by
      intro e he hm
      rcases List.mem_cons.mp he with h | h
      · subst h
        exact absurd hm (by decide)
      · rcases List.mem_cons.mp h with h2 | h2
        · exact h2
        · cases h2)

theorem normalizeWatches_mem (env : EnvFn) (top : GoMap) (ws ws' : List WatchConfig)
    (h : normalizeWatches env top ws = Except.ok ws') :
    ∀ w' ∈ ws', ∃ w ∈ ws, normalizeWatch env top w = Except.ok w' := by
  induction ws generalizing ws' with
  | nil =>
    simp only [normalizeWatches, pure, Except.pure] at h
    cases h
    intro w' hw'
    cases hw'
  | cons w rest ih =>
    simp only [normalizeWatches, bind, Except.bind] at h
    rcases h1 : normalizeWatch env top w with e | w1
    · simp [h1] at h
    · rcases h2 : normalizeWatches env top rest with e | rest1
      · simp [h1, h2] at h
      · simp only [h1, h2, pure, Except.pure] at h
        cases h
        intro w' hw'
        rcases List.mem_cons.mp hw' with hw | hw
        · subst hw
          exact ⟨w, List.mem_cons_self _ _, h1⟩
        · obtain ⟨w0, hw0, hn⟩ := ih rest1 h2 w' hw
          exact ⟨w0, List.mem_cons_of_mem _ hw0, hn⟩

/-- Inversion of `Plugin.UnmarshalJSON`: what a returned plugin comes from. -/
theorem UnmarshalJSON_ok_inv (env : EnvFn) (block : JSON) (q : Plugin) (err : GoError)
    (h : Plugin.UnmarshalJSON env block = Except.ok (q, err)) :
    ∃ p, decodePlainPlugin Plugin.defaults block = Except.ok p
      ∧ ((err = some "failed to parse plugin configuration" ∧ q = p)
        ∨ (err = none ∧ ∃ top ws, parseEnv env p.RawEnv = Except.ok (top, none)
            ∧ normalizeWatches env top p.Watch = Except.ok ws
            ∧ q = { p with Env := top, RawEnv := JSON.null, Watch := ws })) := by
  unfold Plugin.UnmarshalJSON at h
  rcases hd : decodePlainPlugin Plugin.defaults block with e | p
  · simp [hd, bind, Except.bind] at h
  · refine ⟨p, rfl, ?_⟩
    rcases hp : parseEnv env p.RawEnv with e | ⟨top, _ | msg⟩
    · simp [hd, hp, bind, Except.bind] at h
    · right
      rcases hn : normalizeWatches env top p.Watch with e | ws
      · simp [hd, hp, hn, bind, Except.bind] at h
      · simp only [hd, hp, hn, bind, Except.bind, pure, Except.pure, Option.isSome_none,
          Bool.false_eq_true, if_false] at h
        cases h
        exact ⟨rfl, top, ws, rfl, hn, rfl⟩
    · left
      simp only [hd, hp, bind, Except.bind, pure, Except.pure, Option.isSome_some, if_true] at h
      cases h
      exact ⟨rfl, rfl⟩

/-- C18. Whenever `Plugin.UnmarshalJSON` returns without an error, the raw
fields of the model are cleared: `Plugin.RawEnv` is nil and every watch rule
of the result has nil `RawPath`, `Step.RawEnv` and `Step.Build.RawEnv`. -/
theorem UnmarshalJSON_clears_raw_fields (env : EnvFn) (block : JSON) (q : Plugin)
    (h : Plugin.UnmarshalJSON env block = Except.ok (q, none)) :
    q.RawEnv = JSON.null
      ∧ ∀ w ∈ q.Watch, w.RawPath = JSON.null ∧ w.Step.RawEnv = JSON.null
          ∧ w.Step.Build.RawEnv = JSON.null := by
  obtain ⟨p, _, hcase⟩ := UnmarshalJSON_ok_inv env block q none h
  rcases hcase with ⟨herr, _⟩ | ⟨_, top, ws, _, hws, hq⟩
  · cases herr
  · subst hq
    refine ⟨rfl, ?_⟩
    intro w' hw'
    obtain ⟨w, _, hn⟩ := normalizeWatches_mem env top p.Watch ws hws w' hw'
    obtain ⟨w1, _, h2⟩ := normalizeWatch_ok_inv env top w w' hn
    obtain ⟨own, bown, e1, e2, _, _, hres⟩ := appendEnv_ok_inv env _ w' top h2
    subst hres
    exact ⟨rfl, rfl, rfl⟩

theorem UnmarshalJSON_clears_raw_fields_witness :
    Plugin.UnmarshalJSON envEmpty blockNestedBadEnv = Except.ok (normalizedNestedBadEnv, none)
      ∧ normalizedNestedBadEnv.RawEnv = JSON.null
      ∧ ∀ w ∈ normalizedNestedBadEnv.Watch, w.RawPath = JSON.null ∧ w.Step.RawEnv = JSON.null
          ∧ w.Step.Build.RawEnv = JSON.null :=
  ⟨rfl, UnmarshalJSON_clears_raw_fields envEmpty blockNestedBadEnv normalizedNestedBadEnv rfl⟩

/-- C19. For a rule whose command and trigger are both non-empty `appendEnv`
merges as for a command-kind rule: every top-level key is written into the
step's `Env` (the top-level value winning) and `Build.Env` stays
`parseEnv(Build.RawEnv)`; in the loop of `Plugin.UnmarshalJSON` the same rule
still receives the build-field fallback of `setBuild`, its trigger being
non-empty. -/
theorem appendEnv_command_and_trigger_rule (env : EnvFn) (top : GoMap) (watch : WatchConfig)
    (own bown : GoMap) (e1 e2 : GoError)
    (hcmd : watch.Step.Command ≠ "") (htrig : watch.Step.Trigger ≠ "")
    (hown : parseEnv env watch.Step.RawEnv = Except.ok (own, e1))
    (hbown : parseEnv env watch.Step.Build.RawEnv = Except.ok (bown, e2)) :
    (∃ w, appendEnv env watch top = Except.ok w
      ∧ (∀ k, GoMap.get w.Step.Env k
            = match GoMap.get top k with
              | some v => some v
              | none => GoMap.get own k)
      ∧ w.Step.Build.Env = bown)
    ∧ (stringsIfSeq watch.RawPath = true →
      ∃ w, normalizeWatch env top watch = Except.ok w
      ∧ (∀ k, GoMap.get w.Step.Env k
            = match GoMap.get top k with
              | some v => some v
              | none => GoMap.get own k)
      ∧ w.Step.Build.Env = bown
      ∧ w.Step.Build.Message = (setBuild env watch.Step.Build).Message
      ∧ w.Step.Build.Branch = (setBuild env watch.Step.Build).Branch
      ∧ w.Step.Build.Commit = (setBuild env watch.Step.Build).Commit) := by
  constructor
  · refine ⟨_, appendEnv_eq env watch top own bown e1 e2 hown hbown, ?_, ?_⟩
    · intro k
      simp only [appendEnvResult, hcmd, ne_eq, not_false_eq_true, if_true]
      exact GoMap.get_mergeEnv own top k
    · simp [appendEnvResult, hcmd]
  · intro hpath
    obtain ⟨paths, hpaths⟩ := resolvePath_of_stringsIfSeq watch hpath
    have hstep : ({ watch with Paths := paths } : WatchConfig).Step = watch.Step := rfl
    have hn : normalizeWatch env top watch
        = appendEnv env (buildFallback env { watch with Paths := paths }) top := by
      rw [normalizeWatch_eq_bind, hpaths]
      rfl
    have h1 : parseEnv env (buildFallback env { watch with Paths := paths }).Step.RawEnv
        = Except.ok (own, e1) := by
      rw [buildFallback_RawEnv]
      exact hown
    have h2 : parseEnv env (buildFallback env { watch with Paths := paths }).Step.Build.RawEnv
        = Except.ok (bown, e2) := by
      rw [buildFallback_Build_RawEnv]
      exact hbown
    have hc : (buildFallback env { watch with Paths := paths }).Step.Command ≠ "" := by
      rw [buildFallback_Command]
      exact hcmd
    have hb : (buildFallback env { watch with Paths := paths }).Step.Build
        = setBuild env watch.Step.Build := by
      rw [buildFallback_Build]
      simp [htrig]
    refine ⟨_, hn.trans (appendEnv_eq env _ top own bown e1 e2 h1 h2), ?_, ?_, ?_, ?_, ?_⟩
    · intro k
      simp only [appendEnvResult, hc, ne_eq, not_false_eq_true, if_true]
      exact GoMap.get_mergeEnv own top k
    · simp [appendEnvResult, hc]
    · simp only [appendEnvResult, hb]
    · simp only [appendEnvResult, hb]
    · simp only [appendEnvResult, hb]

theorem appendEnv_command_and_trigger_rule_witness :
    (∃ w, appendEnv envBuildkite sampleBothRule sampleTop = Except.ok w
      ∧ (∀ k, GoMap.get w.Step.Env k
            = match GoMap.get sampleTop k with
              | some v => some v
              | none => GoMap.get (some [("X", "rule"), ("Y", "1")]) k)
      ∧ w.Step.Build.Env = some [("B", "b")])
    ∧ (stringsIfSeq sampleBothRule.RawPath = true →
      ∃ w, normalizeWatch envBuildkite sampleTop sampleBothRule = Except.ok w
      ∧ (∀ k, GoMap.get w.Step.Env k
            = match GoMap.get sampleTop k with
              | some v => some v
              | none => GoMap.get (some [("X", "rule"), ("Y", "1")]) k)
      ∧ w.Step.Build.Env = some [("B", "b")]
      ∧ w.Step.Build.Message = (setBuild envBuildkite sampleBothRule.Step.Build).Message
      ∧ w.Step.Build.Branch = (setBuild envBuildkite sampleBothRule.Step.Build).Branch
      ∧ w.Step.Build.Commit = (setBuild envBuildkite sampleBothRule.Step.Build).Commit) :=
  appendEnv_command_and_trigger_rule envBuildkite sampleTop sampleBothRule
    (some [("X", "rule"), ("Y", "1")]) (some [("B", "b")]) none none
    (by decide) (by decide) rfl rfl

theorem splitChars_head (cs : List Char) :
    ∃ rest, splitChars '=' cs = cs.takeWhile (fun c => c ≠ '=') :: rest
      ∧ (rest = [] ↔ '=' ∉ cs) := by
  induction cs with
  | nil => exact ⟨[], rfl, by simp⟩
  | cons c tail ih =>
    obtain ⟨rest, hsplit, hrest⟩ := ih
    by_cases hc : c = '='
    · subst hc
      exact ⟨splitChars '=' tail, by simp [splitChars], by simp [hsplit]⟩
    · refine ⟨rest, by simp [splitChars, hc, hsplit], ?_⟩
      rw [hrest]
      have hc' : ¬ '=' = c := fun h => hc h.symm
      simp [hc']

theorem Split_head (tok : String) :
    ∃ rest, Split tok '=' = beforeEq tok :: rest ∧ (rest = [] ↔ '=' ∉ tok.toList) := by
  obtain ⟨rest, hsplit, hrest⟩ := splitChars_head tok.toList
  refine ⟨rest.map String.mk, ?_, ?_⟩
  · unfold Split beforeEq
    rw [hsplit]
    rfl
  rw [← hrest]
  simp

/-- A token writes the key `k` exactly when its text before the first `=`,
trimmed, is `k` and `k` is non-empty or the token has an `=`. -/
theorem tokenWrite_key_iff (env : EnvFn) (tok k : String) :
    (∃ v, tokenWrite env tok = some (k, v))
      ↔ (TrimSpace (beforeEq tok) = k ∧ (k ≠ "" ∨ '=' ∈ tok.toList)) := by
  obtain ⟨rest, hsplit, hrest⟩ := Split_head tok
  cases rest with
  | nil =>
    have hno : '=' ∉ tok.toList := hrest.mp rfl
    by_cases hlen : 0 < (TrimSpace (beforeEq tok)).length
    · have hne : TrimSpace (beforeEq tok) ≠ "" := by
        intro h
        rw [h] at hlen
        exact absurd hlen (by decide)
      simp only [tokenWrite, hsplit, hlen, if_true, Option.some.injEq, Prod.mk.injEq]
      constructor
      · rintro ⟨v, hk, _⟩
        exact ⟨hk, Or.inl (hk ▸ hne)⟩
      · rintro ⟨hk, _⟩
        exact ⟨_, hk, rfl⟩
    · have he : TrimSpace (beforeEq tok) = "" := by
        by_contra hne
        exact hlen (length_pos_of_ne_empty _ hne)
      simp only [tokenWrite, hsplit, hlen, if_false]
      constructor
      · rintro ⟨v, hv⟩
        cases hv
      · rintro ⟨hk, hor⟩
        rcases hor with hk' | hmem
        · exact absurd (hk.symm.trans he) hk'
        · exact absurd hmem hno
  | cons v0 more =>
    have hmem : '=' ∈ tok.toList := by
      by_contra hno
      have := hrest.mpr hno
      cases this
    simp only [tokenWrite, hsplit, Option.some.injEq, Prod.mk.injEq]
    constructor
    · rintro ⟨v, hk, _⟩
      exact ⟨hk, Or.inr hmem⟩
    · rintro ⟨hk, _⟩
      exact ⟨_, hk, rfl⟩

theorem get_applyWrites_isSome_iff (env : EnvFn) (toks : List String) (k : String) :
    (Entries.get (applyWrites env toks []) k).isSome = true
      ↔ ∃ t ∈ toks, ∃ v, tokenWrite env t = some (k, v) := by
  constructor
  · intro h
    by_contra hno
    have hnone : ∀ t ∈ toks, ∀ v, tokenWrite env t ≠ some (k, v) :=
      fun t ht v hw => hno ⟨t, ht, v, hw⟩
    rw [get_applyWrites_of_no_write env k toks [] hnone] at h
    simp [Entries.get] at h
  · intro h
    obtain ⟨pre, tok, post, htoks, ⟨v, hv⟩, hpost⟩ :=
      exists_last_of_exists (fun t => ∃ v, tokenWrite env t = some (k, v)) toks h
    rw [htoks, get_applyWrites_last env pre post tok k v hv
      (fun t ht v' hw => hpost t ht ⟨v', hw⟩)]
    rfl

/-- C20. For an env list of string tokens `parseEnv` returns a map in which a
key `k` is present exactly when some token's text before its first `=` (the
whole token when it has none), trimmed, equals `k`, and `k` is non-empty or
that token contains an `=`. So empty and blank tokens contribute no entry,
and the token `=v` contributes an entry under the empty key. -/
theorem parseEnv_key_present_iff (env : EnvFn) (toks : List String) (k : String) :
    (∃ m, parseEnv env (JSON.arr (toks.map JSON.str)) = Except.ok (some m, none)
      ∧ ((Entries.get m k).isSome = true
          ↔ ∃ t ∈ toks, TrimSpace (beforeEq t) = k ∧ (k ≠ "" ∨ '=' ∈ t.toList)))
    ∧ parseEnv env (JSON.arr [JSON.str "", JSON.str "  "]) = Except.ok (some [], none)
    ∧ parseEnv env (JSON.arr [JSON.str "=v"]) = Except.ok (some [("", "v")], none) := by
  refine ⟨⟨_, parseEnv_strs env toks, ?_⟩, rfl, rfl⟩
  rw [get_applyWrites_isSome_iff]
  constructor
  · rintro ⟨t, ht, hw⟩
    exact ⟨t, ht, (tokenWrite_key_iff env t k).mp hw⟩
  · rintro ⟨t, ht, hk⟩
    exact ⟨t, ht, (tokenWrite_key_iff env t k).mpr hk⟩

theorem decodePlainPlugin_members (cur : Plugin) (block : JSON) :
    decodePlainPlugin cur block = block.members.foldlM decodePluginMember cur := by
  cases block <;> rfl

theorem findField_mem (names : List String) (key n : String)
    (h : findField names key = some n) : n ∈ names := by
  unfold findField at h
  split_ifs at h with hc
  · cases h
    simpa using hc
  · exact List.mem_of_find?_eq_some h

theorem decodePluginMember_unknown (p : Plugin) (kv : String × JSON)
    (h : knownPluginKey kv.1 = false) : decodePluginMember p kv = Except.ok p := by
  have hnone : findField pluginFields kv.1 = none := by
    simpa [knownPluginKey] using h
  simp [decodePluginMember, hnone, pure, Except.pure]

theorem decodePluginMember_fields (p p' : Plugin) (kv : String × JSON)
    (h : decodePluginMember p kv = Except.ok p') :
    p'.Diff = (if findField pluginFields kv.1 = some "Diff" then decodeString p.Diff kv.2
               else p.Diff)
      ∧ p'.Wait = (if findField pluginFields kv.1 = some "Wait" then decodeBool p.Wait kv.2
                   else p.Wait)
      ∧ p'.LogLevel = (if findField pluginFields kv.1 = some "log_level"
                       then decodeString p.LogLevel kv.2 else p.LogLevel)
      ∧ p'.Interpolation = (if findField pluginFields kv.1 = some "Interpolation"
                            then decodeBool p.Interpolation kv.2 else p.Interpolation) := by
  cases hf : findField pluginFields kv.1 with
  | none =>
    simp only [decodePluginMember, hf, pure, Except.pure] at h
    cases h
    simp
  | some n =>
    have hmem := findField_mem pluginFields kv.1 n hf
    simp only [pluginFields, List.mem_cons, List.mem_singleton, List.not_mem_nil, or_false]
      at hmem
    rcases hmem with rfl | rfl | rfl | rfl | rfl | rfl | rfl | rfl
    · simp only [decodePluginMember, hf, pure, Except.pure] at h
      cases h
      simp
    · simp only [decodePluginMember, hf, pure, Except.pure] at h
      cases h
      simp
    · simp only [decodePluginMember, hf, pure, Except.pure] at h
      cases h
      simp
    · simp only [decodePluginMember, hf, pure, Except.pure] at h
      cases h
      simp
    · simp only [decodePluginMember, hf, pure, Except.pure] at h
      cases h
      simp
    · simp only [decodePluginMember, hf, bind, Except.bind] at h
      rcases hw : decodeWatch p.Watch kv.2 with e | ws
      · simp [hw] at h
      · simp only [hw, pure, Except.pure] at h
        cases h
        simp
    · simp only [decodePluginMember, hf, pure, Except.pure] at h
      cases h
      simp
    · simp only [decodePluginMember, hf, pure, Except.pure] at h
      cases h
      simp

/-- A field that no member of the list selects keeps its value through the
decoding of the members. -/
theorem foldlM_member_absent {α : Type} (f : Plugin → α) (g : α → JSON → α) (n : String)
    (hstep : ∀ p p' kv, decodePluginMember p kv = Except.ok p' →
      f p' = if findField pluginFields kv.1 = some n then g (f p) kv.2 else f p)
    (ms : List (String × JSON)) (p p' : Plugin)
    (habs : ∀ kv ∈ ms, findField pluginFields kv.1 ≠ some n)
    (h : ms.foldlM decodePluginMember p = Except.ok p') : f p' = f p := by
  induction ms generalizing p with
  | nil =>
    simp only [List.foldlM, pure, Except.pure] at h
    cases h
    rfl
  | cons kv rest ih =>
    simp only [List.foldlM, bind, Except.bind] at h
    rcases h1 : decodePluginMember p kv with e | p1
    · simp [h1] at h
    · simp only [h1] at h
      rw [ih p1 (fun x hx => habs x (List.mem_cons_of_mem _ hx)) h, hstep p p1 kv h1]
      simp [habs kv (List.mem_cons_self _ _)]

/-- A field takes the value decoded from the last member that selects it. -/
theorem foldlM_member_present {α : Type} (f : Plugin → α) (g : α → JSON → α) (n : String)
    (hstep : ∀ p p' kv, decodePluginMember p kv = Except.ok p' →
      f p' = if findField pluginFields kv.1 = some n then g (f p) kv.2 else f p)
    (pre post : List (String × JSON)) (key : String) (v : JSON) (p p' : Plugin)
    (hkey : findField pluginFields key = some n)
    (habs : ∀ kv ∈ post, findField pluginFields kv.1 ≠ some n)
    (h : (pre ++ (key, v) :: post).foldlM decodePluginMember p = Except.ok p') :
    ∃ p1, f p' = g (f p1) v := by
  rw [List.foldlM_append] at h
  simp only [bind, Except.bind] at h
  rcases h1 : pre.foldlM decodePluginMember p with e | p1
  · simp [h1] at h
  · simp only [h1, List.foldlM, bind, Except.bind] at h
    rcases h2 : decodePluginMember p1 (key, v) with e | p2
    · simp [h2] at h
    · simp only [h2] at h
      refine ⟨p1, ?_⟩
      rw [foldlM_member_absent f g n hstep post p2 p' habs h, hstep p1 p2 (key, v) h2]
      simp [hkey]

theorem foldlM_filter_known (ms : List (String × JSON)) (p : Plugin) :
    (ms.filter (fun kv => knownPluginKey kv.1)).foldlM decodePluginMember p
      = ms.foldlM decodePluginMember p := by
  induction ms generalizing p with
  | nil => rfl
  | cons kv rest ih =>
    by_cases hk : knownPluginKey kv.1 = true
    · simp only [List.filter_cons, hk, if_true, List.foldlM, bind, Except.bind]
      rcases decodePluginMember p kv with e | p1
      · rfl
      · exact ih p1
    · have hk' : knownPluginKey kv.1 = false := by simpa using hk
      simp only [List.filter_cons, hk', Bool.false_eq_true, if_false, List.foldlM,
        decodePluginMember_unknown p kv hk', bind, Except.bind]
      exact ih p

/-- C15. Unknown keys of a plugin block have no effect: `Plugin.UnmarshalJSON`
returns on the block exactly what it returns on the block without them. In
every plugin it returns, each of `Diff`, `Wait`, `LogLevel`, `Interpolation`
that no key of the block selects has its default, and each one selected by a
key with a value of the field's type (and by no later key) has that value. -/
theorem UnmarshalJSON_defaults_and_unknown_keys (env : EnvFn) (block : JSON) :
    Plugin.UnmarshalJSON env block
        = Plugin.UnmarshalJSON env
            (JSON.obj (block.members.filter (fun kv => knownPluginKey kv.1)))
    ∧ ∀ q err, Plugin.UnmarshalJSON env block = Except.ok (q, err) →
      ((∀ kv ∈ block.members, findField pluginFields kv.1 ≠ some "Diff") →
          q.Diff = "git diff --name-only HEAD~1")
      ∧ ((∀ kv ∈ block.members, findField pluginFields kv.1 ≠ some "Wait") →
          q.Wait = false)
      ∧ ((∀ kv ∈ block.members, findField pluginFields kv.1 ≠ some "log_level") →
          q.LogLevel = "info")
      ∧ ((∀ kv ∈ block.members, findField pluginFields kv.1 ≠ some "Interpolation") →
          q.Interpolation = true)
      ∧ (∀ pre post key s, block.members = pre ++ (key, JSON.str s) :: post →
          findField pluginFields key = some "Diff" →
          (∀ kv ∈ post, findField pluginFields kv.1 ≠ some "Diff") → q.Diff = s)
      ∧ (∀ pre post key b, block.members = pre ++ (key, JSON.bool b) :: post →
          findField pluginFields key = some "Wait" →
          (∀ kv ∈ post, findField pluginFields kv.1 ≠ some "Wait") → q.Wait = b)
      ∧ (∀ pre post key s, block.members = pre ++ (key, JSON.str s) :: post →
          findField pluginFields key = some "log_level" →
          (∀ kv ∈ post, findField pluginFields kv.1 ≠ some "log_level") → q.LogLevel = s)
      ∧ (∀ pre post key b, block.members = pre ++ (key, JSON.bool b) :: post →
          findField pluginFields key = some "Interpolation" →
          (∀ kv ∈ post, findField pluginFields kv.1 ≠ some "Interpolation") →
          q.Interpolation = b) := by
  constructor
  · have hdec : decodePlainPlugin Plugin.defaults block
        = decodePlainPlugin Plugin.defaults
            (JSON.obj (block.members.filter (fun kv => knownPluginKey kv.1))) := by
      rw [decodePlainPlugin_members, decodePlainPlugin_members]
      exact (foldlM_filter_known block.members Plugin.defaults).symm
    unfold Plugin.UnmarshalJSON
    rw [hdec]
  · intro q err h
    obtain ⟨p, hp, hcase⟩ := UnmarshalJSON_ok_inv env block q err h
    rw [decodePlainPlugin_members] at hp
    have hq : q.Diff = p.Diff ∧ q.Wait = p.Wait ∧ q.LogLevel = p.LogLevel
        ∧ q.Interpolation = p.Interpolation := by
      rcases hcase with ⟨_, hq⟩ | ⟨_, top, ws, _, _, hq⟩ <;> subst hq <;> exact ⟨rfl, rfl, rfl, rfl⟩
    obtain ⟨hDiff, hWait, hLog, hInt⟩ := hq
    have sDiff := fun a b kv h => (decodePluginMember_fields a b kv h).1
    have sWait := fun a b kv h => (decodePluginMember_fields a b kv h).2.1
    have sLog := fun a b kv h => (decodePluginMember_fields a b kv h).2.2.1
    have sInt := fun a b kv h => (decodePluginMember_fields a b kv h).2.2.2
    refine ⟨?_, ?_, ?_, ?_, ?_, ?_, ?_, ?_⟩
    · intro habs
      rw [hDiff, foldlM_member_absent (fun x => x.Diff) decodeString "Diff" sDiff _ _ _ habs hp]
      rfl
    · intro habs
      rw [hWait, foldlM_member_absent (fun x => x.Wait) decodeBool "Wait" sWait _ _ _ habs hp]
      rfl
    · intro habs
      rw [hLog, foldlM_member_absent (fun x => x.LogLevel) decodeString "log_level" sLog
        _ _ _ habs hp]
      rfl
    · intro habs
      rw [hInt, foldlM_member_absent (fun x => x.Interpolation) decodeBool "Interpolation" sInt
        _ _ _ habs hp]
      rfl
    · intro pre post key s hms hkey habs
      rw [hms] at hp
      obtain ⟨p1, h1⟩ := foldlM_member_present (fun x => x.Diff) decodeString "Diff" sDiff
        pre post key (JSON.str s) _ _ hkey habs hp
      rw [hDiff, h1]
      rfl
    · intro pre post key b hms hkey habs
      rw [hms] at hp
      obtain ⟨p1, h1⟩ := foldlM_member_present (fun x => x.Wait) decodeBool "Wait" sWait
        pre post key (JSON.bool b) _ _ hkey habs hp
      rw [hWait, h1]
      rfl
    · intro pre post key s hms hkey habs
      rw [hms] at hp
      obtain ⟨p1, h1⟩ := foldlM_member_present (fun x => x.LogLevel) decodeString "log_level"
        sLog pre post key (JSON.str s) _ _ hkey habs hp
      rw [hLog, h1]
      rfl
    · intro pre post key b hms hkey habs
      rw [hms] at hp
      obtain ⟨p1, h1⟩ := foldlM_member_present (fun x => x.Interpolation) decodeBool
        "Interpolation" sInt pre post key (JSON.bool b) _ _ hkey habs hp
      rw [hInt, h1]
      rfl

theorem UnmarshalJSON_defaults_and_unknown_keys_witness :
    Plugin.UnmarshalJSON envEmpty blockWithUnknownKeys
        = Except.ok (normalizedWithUnknownKeys, none)
      ∧ normalizedWithUnknownKeys.Wait = false
      ∧ normalizedWithUnknownKeys.LogLevel = "info"
      ∧ normalizedWithUnknownKeys.Diff = "git diff --name-only main" :=
  ⟨rfl,
   ((UnmarshalJSON_defaults_and_unknown_keys envEmpty blockWithUnknownKeys).2
      normalizedWithUnknownKeys none rfl).2.1 (by decide),
   ((UnmarshalJSON_defaults_and_unknown_keys envEmpty blockWithUnknownKeys).2
      normalizedWithUnknownKeys none rfl).2.2.1 (by decide),
   ((UnmarshalJSON_defaults_and_unknown_keys envEmpty blockWithUnknownKeys).2
      normalizedWithUnknownKeys none rfl).2.2.2.2.1
        [("dif", JSON.str "typo")]
        [("LogLevel", JSON.str "debug"), ("interpolation", JSON.bool false),
         ("watch", JSON.arr [JSON.obj [("path", JSON.str "src/"),
           ("config", JSON.obj [("command", JSON.str "test.sh")])]])]
        "diff" "git diff --name-only main" rfl (by decide) (by decide)⟩

end MonorepoDiff
